import Mathlib

/-!
Verification of the token-filtering engine of lm-format-enforcer
(src/lmformatenforcer/tokenenforcer.py) against its specification.

Strings are modelled as `List Char` (a Python `str` is a sequence of
characters), token identifiers as `Nat`, and Python exceptions as an
explicit `Except PyError` result: the library distinguishes its own
recognized `LMFormatEnforcerException` from every other `Exception`.

The grammar abstraction (`CharacterLevelParser`), its degenerate
`ForceStopParser`, and the vocabulary trie (`TokenizerPrefixTree`) live in
repository files that are not part of src/, so they are modelled from the
spec (sections 3, 4.1 and 4.2), as noted on each such definition.
-/

set_option maxHeartbeats 1000000

/-- Errors a Python call can raise: either the library's recognized
`LMFormatEnforcerException` (actionable by the user) or any other
`Exception` (an unexpected bug). -/
inductive PyError : Type where
  | lmfe (msg : String) : PyError
  | other (msg : String) : PyError
deriving DecidableEq

/-- Modelled from the spec: section 4.1 grammar-state contract
(characterlevelparser.py is not under src/).  A grammar implementation over
an opaque state type `σ`: each capability is a function of the immutable
state and may raise.  `force_stop` is the designated state of the
degenerate ForceStopParser that the engine substitutes on divergence. -/
structure ParserImpl (σ : Type) : Type where
  get_allowed_characters : σ → Except PyError (List Char)
  add_character : σ → Char → Except PyError σ
  can_end : σ → Except PyError Bool
  cache_key : σ → Except PyError (Option String)
  shortcut_key : σ → Except PyError (Option String)
  force_stop : σ

/-- Modelled from the spec: the degenerate force-stop state accepts no
characters, may terminate, and participates in neither cache (its keys are
null, as for the base CharacterLevelParser class). -/
def ForceStopSpec {σ : Type} (impl : ParserImpl σ) : Prop :=
  impl.get_allowed_characters impl.force_stop = .ok [] ∧
  impl.can_end impl.force_stop = .ok true ∧
  impl.cache_key impl.force_stop = .ok none ∧
  impl.shortcut_key impl.force_stop = .ok none

/-- A grammar implementation none of whose capabilities ever raises. -/
def TotalImpl {σ : Type} (impl : ParserImpl σ) : Prop :=
  ∀ p : σ,
    (∃ al, impl.get_allowed_characters p = .ok al) ∧
    (∀ c, ∃ q, impl.add_character p c = .ok q) ∧
    (∃ b, impl.can_end p = .ok b) ∧
    (∃ k, impl.cache_key p = .ok k) ∧
    (∃ s, impl.shortcut_key p = .ok s)

/-- Lift a relation on states to fallible results: both succeed with
related states, or both fail with the same error. -/
def ExceptRel {σ : Type} (R : σ → σ → Prop) :
    Except PyError σ → Except PyError σ → Prop
  | .ok a, .ok b => R a b
  | .error e, .error f => e = f
  | _, _ => False

/-- `R` is a bisimulation: related states are observably identical and
remain related after consuming any character. -/
def IsBisim {σ : Type} (impl : ParserImpl σ) (R : σ → σ → Prop) : Prop :=
  ∀ a b, R a b →
    impl.get_allowed_characters a = impl.get_allowed_characters b ∧
    impl.can_end a = impl.can_end b ∧
    impl.shortcut_key a = impl.shortcut_key b ∧
    impl.cache_key a = impl.cache_key b ∧
    ∀ c, ExceptRel R (impl.add_character a c) (impl.add_character b c)

/-- Two states behave identically for all subsequent input. -/
def Bisim {σ : Type} (impl : ParserImpl σ) (p q : σ) : Prop :=
  ∃ R, IsBisim impl R ∧ R p q

/-- Spec section 4.1: any two states with equal non-null cache keys have the
same behavior for all subsequent input. -/
def CacheKeyContract {σ : Type} (impl : ParserImpl σ) : Prop :=
  ∀ p q k, impl.cache_key p = .ok (some k) → impl.cache_key q = .ok (some k) →
    Bisim impl p q

/-- Modelled from the spec: section 3 TreeNode
(tokenizerprefixtree.py is not under src/): token ids whose decoded
string is exactly the path to this node, plus children keyed by single
characters. -/
inductive TokenizerPrefixTreeNode : Type where
  | mk (tokens : List Nat) (children : List (Char × TokenizerPrefixTreeNode)) :
      TokenizerPrefixTreeNode

def TokenizerPrefixTreeNode.tokens : TokenizerPrefixTreeNode → List Nat
  | .mk ts _ => ts

def TokenizerPrefixTreeNode.children :
    TokenizerPrefixTreeNode → List (Char × TokenizerPrefixTreeNode)
  | .mk _ cs => cs

/-- First-match lookup in an association list (Python dict read). -/
def assocLookup {κ α : Type} [DecidableEq κ] (k : κ) : List (κ × α) → Option α
  | [] => none
  | (k2, v) :: rest => if k2 = k then some v else assocLookup k rest

/-- Replace the value at the first occurrence of a key. -/
def assocReplace {κ α : Type} [DecidableEq κ] (k : κ) (v : α) :
    List (κ × α) → List (κ × α)
  | [] => []
  | (k2, v2) :: rest =>
    if k2 = k then (k2, v) :: rest else (k2, v2) :: assocReplace k v rest

/-- Modelled from the spec: section 4.2 trie insertion — insert the token
string's characters one at a time, creating child nodes on demand, and
append the token id at the terminal node. -/
def add_token_to_tree (token_id : Nat) :
    List Char → TokenizerPrefixTreeNode → TokenizerPrefixTreeNode
  | [], .mk ts cs => .mk (ts ++ [token_id]) cs
  | c :: rest, .mk ts cs =>
    match assocLookup c cs with
    | some child => .mk ts (assocReplace c (add_token_to_tree token_id rest child) cs)
    | none => .mk ts (cs ++ [(c, add_token_to_tree token_id rest (.mk [] []))])

/-- The shared read-only vocabulary structure: the trie root plus the
precomputed free-text token set. -/
structure TokenizerPrefixTree : Type where
  root : TokenizerPrefixTreeNode
  json_freetext_tokens : List Nat

/-- Modelled from the spec: sections 3 and 4.2 — build the trie from all
(token id, decoded string) pairs; `json_freetext_tokens` is the set of ids
whose decoded string contains none of the grammar's delimiter characters
(the JSON string delimiter `"`). -/
def TokenizerPrefixTree.build (regular_tokens : List (Nat × List Char)) :
    TokenizerPrefixTree :=
  { root := regular_tokens.foldl (fun n ts => add_token_to_tree ts.1 ts.2 n) (.mk [] [])
    json_freetext_tokens :=
      (regular_tokens.filter (fun ts => decide ('"' ∉ ts.2))).map (fun ts => ts.1) }

/-- Descend from a node along a character path. -/
def nodeAt : List Char → TokenizerPrefixTreeNode → Option TokenizerPrefixTreeNode
  | [], n => some n
  | c :: rest, n =>
    match assocLookup c n.children with
    | some child => nodeAt rest child
    | none => none

/-- The token ids stored exactly at the end of a path (empty if the path
does not exist). -/
def tokensAtNode (n : TokenizerPrefixTreeNode) (path : List Char) : List Nat :=
  match nodeAt path n with
  | some m => m.tokens
  | none => []

/-- A string is a character-by-character valid continuation from state `p`:
each character is in the allowed set of the successively advanced states
(and no capability raises along the way). -/
def validWalk {σ : Type} (impl : ParserImpl σ) : σ → List Char → Bool
  | _, [] => true
  | p, c :: cs =>
    match impl.get_allowed_characters p with
    | .ok al =>
      if c ∈ al then
        match impl.add_character p c with
        | .ok p2 => validWalk impl p2 cs
        | .error _ => false
      else false
    | .error _ => false

/-- The state reached by a valid walk (none if a character is rejected or a
capability raises). -/
def walkEnd {σ : Type} (impl : ParserImpl σ) : σ → List Char → Option σ
  | p, [] => some p
  | p, c :: cs =>
    match impl.get_allowed_characters p with
    | .ok al =>
      if c ∈ al then
        match impl.add_character p c with
        | .ok p2 => walkEnd impl p2 cs
        | .error _ => none
      else none
    | .error _ => none

/-- Source: TokenEnforcer.OutputTensorState — per-sequence state: decoded
text so far, the grammar state reached, and the lazily computed allowed
token list. -/
structure OutputTensorState (σ : Type) : Type where
  str_so_far : List Char
  parser : σ
  allowed_tokens : List Nat

/-- Source: the TokenEnforcer object.  Python's dicts `prefix_states`
(keyed by token-sequence value) and `allowed_token_cache` (keyed by the
grammar cache key) are association lists here; entries are only ever added
under fresh keys, so first-match lookup coincides with dict lookup.
The alphabet-configuration step of `__init__` (lines 38-40) mutates the
externally supplied parser object and is modelled by the root state being
supplied already configured. -/
structure TokenEnforcer (σ : Type) : Type where
  impl : ParserImpl σ
  prefix_states : List (List Nat × OutputTensorState σ)
  rootParser : σ
  tokenizer_tree : TokenizerPrefixTree
  decoder : List Nat → List Char
  eos_token_id : Nat
  allowed_token_cache : List (String × List Nat)

/-- Source: TokenEnforcer.__init__ — empty caches, trie built once from the
vocabulary. -/
def TokenEnforcer.init {σ : Type} (regular_tokens : List (Nat × List Char))
    (impl : ParserImpl σ) (parser0 : σ) (decoder : List Nat → List Char)
    (eos_token_id : Nat) : TokenEnforcer σ :=
  { impl := impl
    prefix_states := []
    rootParser := parser0
    tokenizer_tree := TokenizerPrefixTree.build regular_tokens
    decoder := decoder
    eos_token_id := eos_token_id
    allowed_token_cache := [] }

mutual

/-- Source: TokenEnforcer._collect_allowed_tokens (lines 105-122).  Adds the
node's tokens, intersects the node's child characters with the parser's
allowed characters, applies the json_freetext shortcut (bulk-add the
precomputed free-text tokens and restrict exploration to the `"`
character), and recurses with a null shortcut key.  Python iterates the
intersection as a set; here the children list is traversed in order with
the same membership conditions, which collects the same tokens. -/
def collect_allowed_tokens {σ : Type} (impl : ParserImpl σ)
    (json_freetext_tokens : List Nat) (p : σ) (tree_node : TokenizerPrefixTreeNode)
    (shortcut : Option String) : Except PyError (List Nat) :=
  match tree_node with
  | .mk node_tokens node_children => do
    let allowed_characters ← impl.get_allowed_characters p
    let explored ← collect_children impl json_freetext_tokens p allowed_characters
        (decide (shortcut = some "json_freetext")) node_children
    pure (node_tokens ++
      (if shortcut = some "json_freetext" then json_freetext_tokens else []) ++
      explored)
termination_by sizeOf tree_node

/-- The per-character loop at the end of _collect_allowed_tokens: explore a
child exactly when its character is allowed by the parser and, under the
json_freetext shortcut, is the string delimiter `"`. -/
def collect_children {σ : Type} (impl : ParserImpl σ)
    (json_freetext_tokens : List Nat) (p : σ) (allowed_characters : List Char)
    (quote_only : Bool) :
    List (Char × TokenizerPrefixTreeNode) → Except PyError (List Nat)
  | [] => .ok []
  | (c, child) :: rest =>
    if c ∈ allowed_characters ∧ (quote_only = true → c = '"') then do
      let p2 ← impl.add_character p c
      let sub ← collect_allowed_tokens impl json_freetext_tokens p2 child none
      let more ← collect_children impl json_freetext_tokens p allowed_characters
          quote_only rest
      pure (sub ++ more)
    else
      collect_children impl json_freetext_tokens p allowed_characters quote_only rest
termination_by l => sizeOf l
end

/-- The traversal part of _compute_allowed_tokens run from the tree root on
a cache miss: shortcut key, tree/grammar intersection, then the end marker
if the state can terminate (lines 80-83). -/
def fresh_allowed {σ : Type} (impl : ParserImpl σ) (tree : TokenizerPrefixTree)
    (eos_token_id : Nat) (p : σ) : Except PyError (List Nat) := do
  let shortcut ← impl.shortcut_key p
  let collected ← collect_allowed_tokens impl tree.json_freetext_tokens p tree.root
      shortcut
  let ce ← impl.can_end p
  pure (collected ++ (if ce then [eos_token_id] else []))

/-- The try-block of _compute_allowed_tokens (lines 74-90): cross-path cache
lookup by the state's cache key, traversal on a miss, the internal
ValueError when no token is allowed, and the cache write.  Returns the
allowed list together with the updated cross-path cache. -/
def compute_allowed_tokens_body {σ : Type} (te : TokenEnforcer σ)
    (state : OutputTensorState σ) :
    Except PyError (List Nat × List (String × List Nat)) := do
  let ck ← te.impl.cache_key state.parser
  match ck with
  | some k =>
    match assocLookup k te.allowed_token_cache with
    | some cached => pure (cached, te.allowed_token_cache)
    | none => do
      let allowed ← fresh_allowed te.impl te.tokenizer_tree te.eos_token_id
          state.parser
      if allowed = [] then
        throw (PyError.other "Parser reached state with no allowed tokens")
      else
        pure (allowed, (k, allowed) :: te.allowed_token_cache)
  | none => do
    let allowed ← fresh_allowed te.impl te.tokenizer_tree te.eos_token_id
        state.parser
    if allowed = [] then
      throw (PyError.other "Parser reached state with no allowed tokens")
    else
      pure (allowed, te.allowed_token_cache)

/-- Source: TokenEnforcer._compute_allowed_tokens (lines 73-103), with its
exception handlers: a recognized LMFormatEnforcerException re-raises
unchanged; any other exception is caught, logged (the log line has no
observable effect and always finds the root state, which the first call
stored) and the state's allowed tokens are forced to the end marker alone.
Returns (raised error if any, mutated state, mutated enforcer). -/
def compute_allowed_tokens {σ : Type} (te : TokenEnforcer σ)
    (state : OutputTensorState σ) :
    Except PyError Unit × OutputTensorState σ × TokenEnforcer σ :=
  match compute_allowed_tokens_body te state with
  | .ok (allowed, cache) =>
    (.ok (), { state with allowed_tokens := allowed },
     { te with allowed_token_cache := cache })
  | .error (.lmfe m) => (.error (.lmfe m), state, te)
  | .error (.other _) =>
    (.ok (), { state with allowed_tokens := [te.eos_token_id] }, te)

/-- The character loop of _apply_new_characters (lines 128-134): advance
when the character is allowed, otherwise substitute the ForceStopParser
and keep going. -/
def apply_characters {σ : Type} (impl : ParserImpl σ) :
    σ → List Char → Except PyError σ
  | p, [] => .ok p
  | p, c :: cs => do
    let al ← impl.get_allowed_characters p
    if c ∈ al then do
      let p2 ← impl.add_character p c
      apply_characters impl p2 cs
    else
      apply_characters impl impl.force_stop cs

/-- Source: TokenEnforcer._apply_new_characters (lines 124-135): decode the
full sequence, take the characters beyond the predecessor's stored text,
and advance the predecessor's grammar state across them. -/
def apply_new_characters {σ : Type} (te : TokenEnforcer σ)
    (state : OutputTensorState σ) (token_sequence : List Nat) :
    Except PyError (OutputTensorState σ) := do
  let characters := te.decoder token_sequence
  let new_characters := characters.drop state.str_so_far.length
  let p ← apply_characters te.impl state.parser new_characters
  pure { str_so_far := characters, parser := p, allowed_tokens := [] }

/-- The shared tail of both fresh branches of get_allowed_tokens: store the
new state, compute its allowed tokens, return them.  Python stores the
mutable state object before calling _compute_allowed_tokens; since the
dict entry aliases that object and _compute_allowed_tokens never reads
`prefix_states` (its only use there feeds a log message), storing the
post-compute state is the same observable behavior. -/
def step_with {σ : Type} (te : TokenEnforcer σ) (key : List Nat)
    (state : OutputTensorState σ) :
    Except PyError (List Nat) × TokenEnforcer σ :=
  match compute_allowed_tokens te state with
  | (res, st, te2) =>
    (res.map (fun _ => st.allowed_tokens),
     { te2 with prefix_states := (key, st) :: te2.prefix_states })

/-- Source: TokenEnforcer.get_allowed_tokens (lines 42-71).  Branch 1:
repeat query, return the cached list.  Branch 2: neither the sequence nor
its immediate prefix is known — first call, pair the full decoded text
with the root grammar state.  Branch 3: incremental extension of the
prefix's state.  A raise from _apply_new_characters propagates before the
new state is stored. -/
def get_allowed_tokens {σ : Type} (te : TokenEnforcer σ)
    (token_sequence : List Nat) : Except PyError (List Nat) × TokenEnforcer σ :=
  let sent_tuple := token_sequence
  let prev_step_tuple := token_sequence.dropLast
  match assocLookup sent_tuple te.prefix_states with
  | some st => (.ok st.allowed_tokens, te)
  | none =>
    match assocLookup prev_step_tuple te.prefix_states with
    | none =>
      let state : OutputTensorState σ :=
        { str_so_far := te.decoder token_sequence
          parser := te.rootParser
          allowed_tokens := [] }
      step_with te sent_tuple state
    | some prev_step_state =>
      match apply_new_characters te prev_step_state token_sequence with
      | .error e => (.error e, te)
      | .ok new_state => step_with te sent_tuple new_state

/-- Spec section 4.1: the free-text shortcut contract relative to the
vocabulary — in a state whose shortcut key is the free-text tag, every
vocabulary string containing no delimiter character is a valid
continuation. -/
def FreetextContract {σ : Type} (impl : ParserImpl σ)
    (regular_tokens : List (Nat × List Char)) : Prop :=
  ∀ p, impl.shortcut_key p = .ok (some "json_freetext") →
    ∀ t s, (t, s) ∈ regular_tokens → '"' ∉ s → validWalk impl p s = true

/-- Enforcer states reachable from a freshly constructed session by any
series of get_allowed_tokens calls. -/
inductive Reachable {σ : Type} (regular_tokens : List (Nat × List Char))
    (impl : ParserImpl σ) (parser0 : σ) (decoder : List Nat → List Char)
    (eos_token_id : Nat) : TokenEnforcer σ → Prop where
  | init : Reachable regular_tokens impl parser0 decoder eos_token_id
      (TokenEnforcer.init regular_tokens impl parser0 decoder eos_token_id)
  | step (te : TokenEnforcer σ) (seq : List Nat) :
      Reachable regular_tokens impl parser0 decoder eos_token_id te →
      Reachable regular_tokens impl parser0 decoder eos_token_id
        (get_allowed_tokens te seq).2

structure SessionInv {σ : Type} (regular_tokens : List (Nat × List Char))
    (te : TokenEnforcer σ) : Prop where
  tree_eq : te.tokenizer_tree = TokenizerPrefixTree.build regular_tokens
  cache_inv : ∀ k toks, (k, toks) ∈ te.allowed_token_cache →
    toks ≠ [] ∧ ∃ p, te.impl.cache_key p = .ok (some k) ∧
      fresh_allowed te.impl te.tokenizer_tree te.eos_token_id p = .ok toks
  state_inv : ∀ seq st, (seq, st) ∈ te.prefix_states →
    ∃ l, fresh_allowed te.impl te.tokenizer_tree te.eos_token_id st.parser = .ok l ∧
      st.allowed_tokens = (if l = [] then [te.eos_token_id] else l)

/-- Hereditarily well-formed trie node: at every level the child characters
are distinct (Python dict keys). -/
inductive WellFormedNode : TokenizerPrefixTreeNode → Prop where
  | mk (tokens : List Nat) (children : List (Char × TokenizerPrefixTreeNode))
      (hkeys : (children.map Prod.fst).Nodup)
      (hch : ∀ c child, (c, child) ∈ children → WellFormedNode child) :
      WellFormedNode (.mk tokens children)

/-- A tiny two-state grammar accepting the single string "a": used to
instantiate the verified theorems on concrete runs. -/
def AImpl : ParserImpl (Fin 2) :=
  { get_allowed_characters := fun p => .ok (if p = 0 then ['a'] else [])
    add_character := fun _ _ => .ok 1
    can_end := fun _ => .ok true
    cache_key := fun _ => .ok none
    shortcut_key := fun _ => .ok none
    force_stop := 1 }

def AVocab : List (Nat × List Char) := [(5, ['a'])]

def ASession : TokenEnforcer (Fin 2) :=
  TokenEnforcer.init AVocab AImpl 0 (fun _ => []) 9

/-- A session holding one already-seen sequence, whose decoder emits the
character x (not allowed anywhere) for two-token sequences. -/
def C4Session : TokenEnforcer (Fin 2) :=
  { impl := AImpl
    prefix_states := [([7], { str_so_far := [], parser := 0, allowed_tokens := [5, 9] })]
    rootParser := 0
    tokenizer_tree := TokenizerPrefixTree.build AVocab
    decoder := fun seq => if 2 ≤ seq.length then ['x'] else []
    eos_token_id := 9
    allowed_token_cache := [] }

/-- Like C4Session but the decoder emits the allowed character a. -/
def C5Session : TokenEnforcer (Fin 2) :=
  { impl := AImpl
    prefix_states := [([7], { str_so_far := [], parser := 0, allowed_tokens := [5, 9] })]
    rootParser := 0
    tokenizer_tree := TokenizerPrefixTree.build AVocab
    decoder := fun seq => if 2 ≤ seq.length then ['a'] else []
    eos_token_id := 9
    allowed_token_cache := [] }

/-- A grammar whose state false raises a recognized error from cache_key
and whose state true raises an unrecognized error from
get_allowed_characters. -/
def RaiseImpl : ParserImpl Bool :=
  { get_allowed_characters := fun p => if p then .error (.other "boom") else .ok []
    add_character := fun p _ => .ok p
    can_end := fun _ => .ok true
    cache_key := fun p => if p then .ok none else .error (.lmfe "bad schema")
    shortcut_key := fun _ => .ok none
    force_stop := false }

def RaiseSession : TokenEnforcer Bool :=
  TokenEnforcer.init [] RaiseImpl false (fun _ => []) 0

/-- A five-state grammar for the single string a-quote-b whose root state
carries the free-text shortcut tag: exercises the shortcut's omission of
valid tokens containing the delimiter. -/
def CexImpl : ParserImpl (Fin 5) :=
  { get_allowed_characters := fun p =>
      .ok (if p = 0 then ['a'] else if p = 1 then ['"'] else if p = 2 then ['b'] else [])
    add_character := fun p _ =>
      .ok (if p = 0 then 1 else if p = 1 then 2 else if p = 2 then 3 else p)
    can_end := fun _ => .ok true
    cache_key := fun _ => .ok none
    shortcut_key := fun p => .ok (if p = 0 then some "json_freetext" else none)
    force_stop := 4 }

def CexVocab : List (Nat × List Char) := [(1, ['a', '"', 'b'])]

def CexSession : TokenEnforcer (Fin 5) :=
  TokenEnforcer.init CexVocab CexImpl 0 (fun _ => []) 0

/-- The exact statement of claim C2 (completeness of the returned set): on
a reachable session with a compliant grammar, every vocabulary token whose
decoded string is a character-by-character valid continuation from the
queried state is in the returned set. -/
def C2Statement : Prop :=
  ∀ (σ : Type) (regular_tokens : List (Nat × List Char)) (impl : ParserImpl σ)
    (parser0 : σ) (decoder : List Nat → List Char) (eos_token_id : Nat)
    (te te2 : TokenEnforcer σ) (seq toks : List Nat),
    TotalImpl impl → CacheKeyContract impl → FreetextContract impl regular_tokens →
    Reachable regular_tokens impl parser0 decoder eos_token_id te →
    get_allowed_tokens te seq = (.ok toks, te2) →
    ∀ st, assocLookup seq te2.prefix_states = some st →
    ∀ t s, (t, s) ∈ regular_tokens → validWalk impl st.parser s = true → t ∈ toks

/-- C1 (soundness of the returned set): on a reachable session with a
never-raising grammar satisfying the cache-key and free-text contracts,
every token identifier returned by get_allowed_tokens, other than the end
marker, decodes to a vocabulary string each of whose characters lies in
the allowed characters of the grammar state successively advanced over
the preceding characters; and the end marker is returned whenever the
queried state can terminate.  This covers the cache-hit, fresh-traversal,
free-text-shortcut and forced-end-marker paths. -/


@[simp] theorem except_ok_bind {α β : Type} (a : α) (f : α → Except PyError β) :
    (Except.ok a >>= f : Except PyError β) = f a := rfl

@[simp] theorem except_error_bind {α β : Type} (e : PyError) (f : α → Except PyError β) :
    (Except.error e >>= f : Except PyError β) = Except.error e := rfl

@[simp] theorem except_pure_eq {α : Type} (a : α) :
    (pure a : Except PyError α) = Except.ok a := rfl

@[simp] theorem except_throw_eq {α : Type} (e : PyError) :
    (throw e : Except PyError α) = Except.error e := rfl

@[simp] theorem except_map_ok {α β : Type} (f : α → β) (a : α) :
    (Except.ok a : Except PyError α).map f = Except.ok (f a) := rfl

@[simp] theorem except_map_error {α β : Type} (f : α → β) (e : PyError) :
    (Except.error e : Except PyError α).map f = Except.error e := rfl

theorem assocLookup_mem {κ α : Type} [DecidableEq κ] {k : κ} {v : α}
    {l : List (κ × α)} (h : assocLookup k l = some v) : (k, v) ∈ l := by
  induction l with
  | nil => simp [assocLookup] at h
  | cons hd tl ih =>
    obtain ⟨k2, v2⟩ := hd
    by_cases hk : k2 = k
    · subst hk
      simp [assocLookup] at h
      subst h
      exact List.mem_cons_self _ _
    · simp [assocLookup, hk] at h
      exact List.mem_cons_of_mem _ (ih h)

theorem assocLookup_replace_self {κ α : Type} [DecidableEq κ] {k : κ} (v : α)
    {l : List (κ × α)} (h : (assocLookup k l).isSome) :
    assocLookup k (assocReplace k v l) = some v := by
  induction l with
  | nil => simp [assocLookup] at h
  | cons hd tl ih =>
    obtain ⟨k2, v2⟩ := hd
    by_cases hk : k2 = k
    · subst hk; simp [assocLookup, assocReplace]
    · simp [assocLookup, assocReplace, hk] at h ⊢
      exact ih h

theorem assocLookup_replace_ne {κ α : Type} [DecidableEq κ] {k k2 : κ} (v : α)
    (l : List (κ × α)) (h : k2 ≠ k) :
    assocLookup k2 (assocReplace k v l) = assocLookup k2 l := by
  induction l with
  | nil => simp [assocReplace]
  | cons hd tl ih =>
    obtain ⟨k3, v3⟩ := hd
    by_cases hk : k3 = k
    · have hk2 : ¬ k = k2 := fun hc => h hc.symm
      simp [assocReplace, assocLookup, hk, hk2]
    · by_cases hk2 : k3 = k2
      · subst hk2; simp [assocReplace, assocLookup, hk]
      · simp [assocReplace, assocLookup, hk, hk2, ih]

theorem assocLookup_append_of_none {κ α : Type} [DecidableEq κ] {k : κ}
    {l : List (κ × α)} (l2 : List (κ × α)) (h : assocLookup k l = none) :
    assocLookup k (l ++ l2) = assocLookup k l2 := by
  induction l with
  | nil => simp
  | cons hd tl ih =>
    obtain ⟨k2, v2⟩ := hd
    by_cases hk : k2 = k
    · simp [assocLookup, hk] at h
    · simp [assocLookup, hk] at h ⊢
      exact ih h

theorem assocLookup_append_of_some {κ α : Type} [DecidableEq κ] {k : κ} {v : α}
    {l : List (κ × α)} (l2 : List (κ × α)) (h : assocLookup k l = some v) :
    assocLookup k (l ++ l2) = some v := by
  induction l with
  | nil => simp [assocLookup] at h
  | cons hd tl ih =>
    obtain ⟨k2, v2⟩ := hd
    by_cases hk : k2 = k
    · simp [assocLookup, hk] at h ⊢; exact h
    · simp [assocLookup, hk] at h ⊢
      exact ih h

theorem tokensAtNode_nil (ts : List Nat) (chs : List (Char × TokenizerPrefixTreeNode)) :
    tokensAtNode (.mk ts chs) [] = ts := rfl

theorem tokensAtNode_cons (ts : List Nat) (chs : List (Char × TokenizerPrefixTreeNode))
    (d : Char) (ds : List Char) :
    tokensAtNode (.mk ts chs) (d :: ds)
      = (match assocLookup d chs with
         | some child => tokensAtNode child ds
         | none => []) := by
  cases hl : assocLookup d chs with
  | some child =>
    simp [tokensAtNode, nodeAt, TokenizerPrefixTreeNode.children, hl]
  | none =>
    simp [tokensAtNode, nodeAt, TokenizerPrefixTreeNode.children, hl]

theorem tokensAtNode_empty (u : List Char) :
    tokensAtNode (.mk [] []) u = [] := by
  cases u with
  | nil => rfl
  | cons c cs => simp [tokensAtNode_cons, assocLookup]

/-- Inserting a token id at path `s` adds it to the tokens at path `s` and
leaves every other path's tokens unchanged. -/

theorem tokensAtNode_add_token : ∀ (s : List Char) (n : TokenizerPrefixTreeNode)
    (t : Nat) (u : List Char),
    tokensAtNode (add_token_to_tree t s n) u
      = tokensAtNode n u ++ (if u = s then [t] else []) := by
  intro s
  induction s with
  | nil =>
    intro n t u
    obtain ⟨ts, chs⟩ := n
    cases u with
    | nil => simp [add_token_to_tree, tokensAtNode_nil]
    | cons d ds => simp [add_token_to_tree, tokensAtNode_cons]
  | cons c cs2 ih =>
    intro n t u
    obtain ⟨ts, chs⟩ := n
    cases hl : assocLookup c chs with
    | some child =>
      cases u with
      | nil => simp [add_token_to_tree, hl, tokensAtNode_nil]
      | cons d ds =>
        by_cases hd : d = c
        · subst hd
          have hrep : assocLookup d (assocReplace d (add_token_to_tree t cs2 child) chs)
              = some (add_token_to_tree t cs2 child) :=
            assocLookup_replace_self _ (by simp [hl])
          simp only [add_token_to_tree, hl, tokensAtNode_cons, hrep]
          rw [ih child t ds]
          by_cases hds : ds = cs2 <;> simp [hds]
        · have hrep : assocLookup d (assocReplace c (add_token_to_tree t cs2 child) chs)
              = assocLookup d chs :=
            assocLookup_replace_ne _ _ hd
          simp only [add_token_to_tree, hl, tokensAtNode_cons, hrep]
          have hne : ¬ (d :: ds = c :: cs2) := by simp [hd]
          simp only [hne, if_false]
          cases assocLookup d chs <;> simp
    | none =>
      cases u with
      | nil => simp [add_token_to_tree, hl, tokensAtNode_nil]
      | cons d ds =>
        by_cases hd : d = c
        · subst hd
          have happ : assocLookup d (chs ++ [(d, add_token_to_tree t cs2 (.mk [] []))])
              = some (add_token_to_tree t cs2 (.mk [] [])) := by
            rw [assocLookup_append_of_none _ hl]
            simp [assocLookup]
          simp only [add_token_to_tree, hl, tokensAtNode_cons, happ]
          rw [ih (.mk [] []) t ds, tokensAtNode_empty]
          by_cases hds : ds = cs2 <;> simp [hds, hl, tokensAtNode_cons]
        · have happ : assocLookup d (chs ++ [(c, add_token_to_tree t cs2 (.mk [] []))])
              = assocLookup d chs := by
            cases hdl : assocLookup d chs with
            | some v => exact assocLookup_append_of_some _ hdl
            | none =>
              rw [assocLookup_append_of_none _ hdl]
              have hcd : ¬ c = d := fun h => hd (Eq.symm h)
              simp [assocLookup, hcd]
          simp only [add_token_to_tree, hl, tokensAtNode_cons, happ]
          have hne : ¬ (d :: ds = c :: cs2) := by simp [hd]
          simp only [hne, if_false]
          cases assocLookup d chs <;> simp

/-- The built trie holds exactly the vocabulary: a token id lies at path u
iff (id, u) is a vocabulary pair. -/

theorem mem_tokensAtNode_build (regular_tokens : List (Nat × List Char))
    (t : Nat) (u : List Char) :
    t ∈ tokensAtNode (TokenizerPrefixTree.build regular_tokens).root u
      ↔ (t, u) ∈ regular_tokens := by
  suffices h : ∀ (toks : List (Nat × List Char)) (n : TokenizerPrefixTreeNode),
      t ∈ tokensAtNode (toks.foldl (fun n ts => add_token_to_tree ts.1 ts.2 n) n) u
        ↔ t ∈ tokensAtNode n u ∨ (t, u) ∈ toks by
    rw [show (TokenizerPrefixTree.build regular_tokens).root
        = regular_tokens.foldl (fun n ts => add_token_to_tree ts.1 ts.2 n) (.mk [] []) from rfl]
    rw [h regular_tokens (.mk [] [])]
    simp [tokensAtNode_empty]
  intro toks
  induction toks with
  | nil => simp
  | cons hd tl ih =>
    intro n
    rw [List.foldl_cons, ih]
    rw [tokensAtNode_add_token hd.2 n hd.1 u]
    by_cases hu : u = hd.2
    · simp [List.mem_append, List.mem_cons, hu, Prod.ext_iff]
      tauto
    · simp [List.mem_append, List.mem_cons, if_neg hu, Prod.ext_iff, hu]

/-- Membership in the precomputed free-text token set. -/

theorem mem_json_freetext_build (regular_tokens : List (Nat × List Char)) (t : Nat) :
    t ∈ (TokenizerPrefixTree.build regular_tokens).json_freetext_tokens
      ↔ ∃ s, (t, s) ∈ regular_tokens ∧ ¬ ('\u0022' ∈ s) := by
  rw [show (TokenizerPrefixTree.build regular_tokens).json_freetext_tokens
      = (regular_tokens.filter (fun ts => decide ('\u0022' ∉ ts.2))).map (fun ts => ts.1) from rfl]
  simp only [List.mem_map, List.mem_filter]
  constructor
  · rintro ⟨⟨t2, s⟩, ⟨hmem, hq⟩, ht⟩
    subst ht
    exact ⟨s, hmem, by simpa using hq⟩
  · rintro ⟨s, hmem, hq⟩
    exact ⟨(t, s), ⟨hmem, by simpa using hq⟩, rfl⟩

theorem apply_characters_append {σ : Type} (impl : ParserImpl σ) :
    ∀ (u v : List Char) (p : σ),
    apply_characters impl p (u ++ v)
      = (apply_characters impl p u) >>= (fun q => apply_characters impl q v) := by
  intro u
  induction u with
  | nil => intro v p; simp [apply_characters]
  | cons c cs ih =>
    intro v p
    simp only [List.cons_append, apply_characters]
    cases impl.get_allowed_characters p with
    | error e => simp
    | ok al =>
      simp only [except_ok_bind]
      by_cases hc : c ∈ al
      · simp only [if_pos hc]
        cases impl.add_character p c with
        | error e => simp
        | ok p2 => simp [ih]
      · simp only [if_neg hc]
        exact ih v impl.force_stop

theorem walkEnd_apply_characters {σ : Type} (impl : ParserImpl σ) :
    ∀ (u : List Char) (p q : σ), walkEnd impl p u = some q →
      apply_characters impl p u = .ok q := by
  intro u
  induction u with
  | nil =>
    intro p q h
    simp [walkEnd] at h
    simp [apply_characters, h]
  | cons c cs ih =>
    intro p q h
    cases hal : impl.get_allowed_characters p with
    | error e => simp [walkEnd, hal] at h
    | ok al =>
      simp only [walkEnd, hal] at h
      simp only [apply_characters, hal, except_ok_bind]
      by_cases hc : c ∈ al
      · rw [if_pos hc] at h
        rw [if_pos hc]
        cases hadd : impl.add_character p c with
        | error e => simp [hadd] at h
        | ok p2 =>
          simp only [hadd] at h
          simp only [except_ok_bind]
          exact ih p2 q h
      · rw [if_neg hc] at h
        simp at h

theorem apply_characters_force_stop {σ : Type} {impl : ParserImpl σ}
    (hfs : ForceStopSpec impl) :
    ∀ (v : List Char), apply_characters impl impl.force_stop v = .ok impl.force_stop := by
  intro v
  induction v with
  | nil => rfl
  | cons c cs ih =>
    simp only [apply_characters, hfs.1, except_ok_bind, List.not_mem_nil, if_neg]
    simpa using ih

theorem apply_characters_total {σ : Type} {impl : ParserImpl σ}
    (htot : TotalImpl impl) :
    ∀ (u : List Char) (p : σ), ∃ q, apply_characters impl p u = .ok q := by
  intro u
  induction u with
  | nil => intro p; exact ⟨p, rfl⟩
  | cons c cs ih =>
    intro p
    obtain ⟨al, hal⟩ := (htot p).1
    simp only [apply_characters, hal, except_ok_bind]
    by_cases hc : c ∈ al
    · obtain ⟨p2, hp2⟩ := (htot p).2.1 c
      rw [if_pos hc, hp2]
      simpa using ih p2
    · rw [if_neg hc]
      exact ih impl.force_stop

theorem validWalk_walkEnd {σ : Type} (impl : ParserImpl σ) :
    ∀ (u : List Char) (p : σ), validWalk impl p u = true ↔ ∃ q, walkEnd impl p u = some q := by
  intro u
  induction u with
  | nil => intro p; simp [validWalk, walkEnd]
  | cons c cs ih =>
    intro p
    simp only [validWalk, walkEnd]
    cases impl.get_allowed_characters p with
    | error e => simp
    | ok al =>
      by_cases hc : c ∈ al
      · simp only [if_pos hc]
        cases impl.add_character p c with
        | error e => simp
        | ok p2 => exact ih p2
      · simp [if_neg hc]

theorem WellFormedNode.keys {n : TokenizerPrefixTreeNode} (h : WellFormedNode n) :
    (n.children.map Prod.fst).Nodup := by
  cases h with
  | mk tokens children hkeys hch => exact hkeys

theorem WellFormedNode.child {n : TokenizerPrefixTreeNode} (h : WellFormedNode n)
    {c : Char} {m : TokenizerPrefixTreeNode} (hm : (c, m) ∈ n.children) :
    WellFormedNode m := by
  cases h with
  | mk tokens children hkeys hch => exact hch c m hm

theorem assocLookup_of_mem_nodup {κ α : Type} [DecidableEq κ]
    {l : List (κ × α)} (hnd : (l.map Prod.fst).Nodup) {k : κ} {v : α}
    (hm : (k, v) ∈ l) : assocLookup k l = some v := by
  induction l with
  | nil => simp at hm
  | cons hd tl ih =>
    obtain ⟨k2, v2⟩ := hd
    simp only [List.map_cons, List.nodup_cons] at hnd
    rcases List.mem_cons.mp hm with h | h
    · obtain ⟨hk, hv⟩ := Prod.mk.injEq .. ▸ h
      injection h with h1 h2
      simp [assocLookup, h1.symm, h2]
    · have hk2 : k2 ≠ k := by
        intro hc
        apply hnd.1
        subst hc
        exact List.mem_map.mpr ⟨(k2, v), h, rfl⟩
      simp only [assocLookup, if_neg hk2]
      exact ih hnd.2 h

theorem assocReplace_keys {κ α : Type} [DecidableEq κ] (k : κ) (v : α) :
    ∀ (l : List (κ × α)), (assocReplace k v l).map Prod.fst = l.map Prod.fst := by
  intro l
  induction l with
  | nil => rfl
  | cons hd tl ih =>
    obtain ⟨k2, v2⟩ := hd
    by_cases hk : k2 = k
    · simp [assocReplace, hk]
    · simp [assocReplace, hk, ih]

theorem mem_assocReplace {κ α : Type} [DecidableEq κ] {k : κ} {v : α}
    {l : List (κ × α)} {d : κ} {x : α} (h : (d, x) ∈ assocReplace k v l) :
    (d, x) ∈ l ∨ (d = k ∧ x = v) := by
  induction l with
  | nil => simp [assocReplace] at h
  | cons hd tl ih =>
    obtain ⟨k2, v2⟩ := hd
    by_cases hk : k2 = k
    · rw [assocReplace, if_pos hk] at h
      rcases List.mem_cons.mp h with h | h
      · injection h with h1 h2
        right
        exact ⟨hk ▸ h1, h2⟩
      · exact Or.inl (List.mem_cons_of_mem _ h)
    · rw [assocReplace, if_neg hk] at h
      rcases List.mem_cons.mp h with h | h
      · exact Or.inl (h ▸ List.mem_cons_self _ _)
      · rcases ih h with h2 | h2
        · exact Or.inl (List.mem_cons_of_mem _ h2)
        · exact Or.inr h2

theorem assocLookup_none_not_mem {κ α : Type} [DecidableEq κ] {k : κ}
    {l : List (κ × α)} (h : assocLookup k l = none) : k ∉ l.map Prod.fst := by
  induction l with
  | nil => simp
  | cons hd tl ih =>
    obtain ⟨k2, v2⟩ := hd
    by_cases hk : k2 = k
    · simp [assocLookup, hk] at h
    · simp only [assocLookup, if_neg hk] at h
      simp only [List.map_cons, List.mem_cons]
      rintro (hc | hc)
      · exact hk hc.symm
      · exact ih h hc

theorem wellFormed_add_token (t : Nat) :
    ∀ (s : List Char) (n : TokenizerPrefixTreeNode), WellFormedNode n →
      WellFormedNode (add_token_to_tree t s n) := by
  intro s
  induction s with
  | nil =>
    intro n hn
    obtain ⟨ts, chs⟩ := n
    cases hn with
    | mk _ _ hkeys hch => exact .mk _ _ hkeys hch
  | cons c cs ih =>
    intro n hn
    obtain ⟨ts, chs⟩ := n
    cases hn with
    | mk _ _ hkeys hch =>
      cases hl : assocLookup c chs with
      | some child =>
        rw [add_token_to_tree, hl]
        refine .mk _ _ ?_ ?_
        · rw [assocReplace_keys]
          exact hkeys
        · intro d x hm
          rcases mem_assocReplace hm with h | ⟨hd, hx⟩
          · exact hch d x h
          · subst hx
            exact ih child (hch c child (assocLookup_mem hl))
      | none =>
        rw [add_token_to_tree, hl]
        refine .mk _ _ ?_ ?_
        · simp only [List.map_append, List.map_cons, List.map_nil]
          rw [List.nodup_append]
          refine ⟨hkeys, List.nodup_singleton c, ?_⟩
          intro a ha hb
          simp at hb
          subst hb
          exact assocLookup_none_not_mem hl ha
        · intro d x hm
          rcases List.mem_append.mp hm with h | h
          · exact hch d x h
          · simp at h
            obtain ⟨hd, hx⟩ := h
            subst hx
            exact ih (.mk [] []) (.mk _ _ (by simp) (by simp))

theorem wellFormed_build (regular_tokens : List (Nat × List Char)) :
    WellFormedNode (TokenizerPrefixTree.build regular_tokens).root := by
  rw [show (TokenizerPrefixTree.build regular_tokens).root
      = regular_tokens.foldl (fun n ts => add_token_to_tree ts.1 ts.2 n) (.mk [] []) from rfl]
  have h0 : WellFormedNode (.mk [] []) := .mk _ _ (by simp) (by simp)
  generalize (TokenizerPrefixTreeNode.mk [] []) = n0 at h0 ⊢
  induction regular_tokens generalizing n0 with
  | nil => exact h0
  | cons hd tl ih =>
    rw [List.foldl_cons]
    exact ih _ (wellFormed_add_token hd.1 hd.2 n0 h0)

theorem collect_children_empty_allowed {σ : Type} (impl : ParserImpl σ)
    (jft : List Nat) (p : σ) (qo : Bool) :
    ∀ (l : List (Char × TokenizerPrefixTreeNode)),
      collect_children impl jft p [] qo l = .ok [] := by
  intro l
  induction l with
  | nil => rw [collect_children]
  | cons hd tl ih =>
    obtain ⟨c, child⟩ := hd
    rw [collect_children]
    rw [if_neg (by simp)]
    exact ih

/-- On a state that allows no characters the traversal returns just the
node's own tokens (plus the bulk free-text set under the shortcut). -/

theorem collect_no_allowed {σ : Type} (impl : ParserImpl σ) (jft : List Nat)
    (p : σ) (ts : List Nat) (chs : List (Char × TokenizerPrefixTreeNode))
    (sc : Option String) (hal : impl.get_allowed_characters p = .ok []) :
    collect_allowed_tokens impl jft p (.mk ts chs) sc
      = .ok (ts ++ (if sc = some "json_freetext" then jft else []) ++ []) := by
  rw [collect_allowed_tokens]
  simp only [hal, except_ok_bind, collect_children_empty_allowed, except_pure_eq]

/-- A grammar that never raises makes the traversal never raise. -/

theorem collect_total {σ : Type} {impl : ParserImpl σ} (htot : TotalImpl impl)
    (jft : List Nat) :
    ∀ (p : σ) (node : TokenizerPrefixTreeNode) (sc : Option String),
      ∃ l, collect_allowed_tokens impl jft p node sc = .ok l := by
  refine collect_allowed_tokens.induct impl jft
    (fun p node sc => ∃ l, collect_allowed_tokens impl jft p node sc = .ok l)
    (fun p al qo l => ∃ r, collect_children impl jft p al qo l = .ok r)
    ?_ ?_ ?_ ?_
  · intro p shortcut ts children ih
    obtain ⟨al, hal⟩ := (htot p).1
    obtain ⟨r, hr⟩ := ih al
    rw [collect_allowed_tokens]
    simp only [hal, except_ok_bind, hr, except_pure_eq]
    exact ⟨_, rfl⟩
  · intro p al qo
    exact ⟨[], by rw [collect_children]⟩
  · intro p al qo c child rest hcond ih1 ih2
    obtain ⟨p2, hp2⟩ := (htot p).2.1 c
    obtain ⟨sub, hsub⟩ := ih1 p2
    obtain ⟨more, hmore⟩ := ih2
    rw [collect_children, if_pos hcond]
    simp only [hp2, except_ok_bind, hsub, hmore, except_pure_eq]
    exact ⟨_, rfl⟩
  · intro p al qo c child rest hcond ih
    obtain ⟨more, hmore⟩ := ih
    rw [collect_children, if_neg hcond]
    exact ⟨more, hmore⟩

/-- Soundness of the traversal on a well-formed trie: every collected token
either lies at a path that is a valid walk from the current state, or was
bulk-added by the free-text shortcut. -/

theorem collect_sound {σ : Type} (impl : ParserImpl σ) (jft : List Nat) :
    ∀ (p : σ) (node : TokenizerPrefixTreeNode) (sc : Option String),
      WellFormedNode node →
      ∀ toks, collect_allowed_tokens impl jft p node sc = .ok toks →
      ∀ t, t ∈ toks →
        (∃ u, t ∈ tokensAtNode node u ∧ validWalk impl p u = true) ∨
        (sc = some "json_freetext" ∧ t ∈ jft) := by
  refine collect_allowed_tokens.induct impl jft
    (fun p node sc => WellFormedNode node →
      ∀ toks, collect_allowed_tokens impl jft p node sc = .ok toks →
      ∀ t, t ∈ toks →
        (∃ u, t ∈ tokensAtNode node u ∧ validWalk impl p u = true) ∨
        (sc = some "json_freetext" ∧ t ∈ jft))
    (fun p al qo l => (∀ c child, (c, child) ∈ l → WellFormedNode child) →
      (l.map Prod.fst).Nodup →
      impl.get_allowed_characters p = .ok al →
      ∀ toks, collect_children impl jft p al qo l = .ok toks →
      ∀ t, t ∈ toks →
        ∃ c child u, assocLookup c l = some child ∧ t ∈ tokensAtNode child u ∧
          validWalk impl p (c :: u) = true)
    ?_ ?_ ?_ ?_
  · intro p shortcut ts children ih hwf toks hok t ht
    rw [collect_allowed_tokens] at hok
    cases hal : impl.get_allowed_characters p with
    | error e => rw [hal] at hok; simp at hok
    | ok al =>
      rw [hal] at hok
      simp only [except_ok_bind] at hok
      cases hch : collect_children impl jft p al
          (decide (shortcut = some "json_freetext")) children with
      | error e => rw [hch] at hok; simp at hok
      | ok explored =>
        rw [hch] at hok
        simp only [except_ok_bind, except_pure_eq, Except.ok.injEq] at hok
        subst hok
        rcases List.mem_append.mp ht with ht | ht
        rcases List.mem_append.mp ht with ht | ht
        · left
          exact ⟨[], by simpa [tokensAtNode_nil] using ht, rfl⟩
        · by_cases hsc : shortcut = some "json_freetext"
          · right
            rw [if_pos hsc] at ht
            exact ⟨hsc, ht⟩
          · rw [if_neg hsc] at ht
            simp at ht
        · have hwfc : ∀ c child, (c, child) ∈ children → WellFormedNode child := by
            intro c child hm
            exact hwf.child hm
          have hnd : (children.map Prod.fst).Nodup := hwf.keys
          obtain ⟨c, child, u, hlk, htk, hwlk⟩ := ih al hwfc hnd hal explored hch t ht
          left
          refine ⟨c :: u, ?_, hwlk⟩
          rw [tokensAtNode_cons, hlk]
          exact htk
  · intro p al qo hwfc hnd hal toks hok t ht
    simp only [collect_children] at hok
    injection hok with hok
    subst hok
    simp at ht
  · intro p al qo c child rest hcond ih1 ih2 hwfc hnd hal toks hok t ht
    rw [collect_children, if_pos hcond] at hok
    cases hadd : impl.add_character p c with
    | error e => rw [hadd] at hok; simp at hok
    | ok p2 =>
      rw [hadd] at hok
      simp only [except_ok_bind] at hok
      cases hsub : collect_allowed_tokens impl jft p2 child none with
      | error e => rw [hsub] at hok; simp at hok
      | ok sub =>
        rw [hsub] at hok
        simp only [except_ok_bind] at hok
        cases hmore : collect_children impl jft p al qo rest with
        | error e => rw [hmore] at hok; simp at hok
        | ok more =>
          rw [hmore] at hok
          simp only [except_ok_bind, except_pure_eq, Except.ok.injEq] at hok
          subst hok
          simp only [List.map_cons, List.nodup_cons] at hnd
          rcases List.mem_append.mp ht with ht | ht
          · have hwfchild : WellFormedNode child :=
              hwfc c child (List.mem_cons_self _ _)
            rcases ih1 p2 hwfchild sub hsub t ht with ⟨u, htk, hwlk⟩ | ⟨hjf, _⟩
            · refine ⟨c, child, u, ?_, htk, ?_⟩
              · simp [assocLookup]
              · simp only [validWalk, hal, if_pos hcond.1, hadd]
                exact hwlk
            · simp at hjf
          · obtain ⟨c2, child2, u, hlk, htk, hwlk⟩ := ih2
              (fun d x hm => hwfc d x (List.mem_cons_of_mem _ hm)) hnd.2 hal more hmore t ht
            have hc2 : c ≠ c2 := by
              intro heq
              apply hnd.1
              subst heq
              exact List.mem_map.mpr ⟨(c, child2), assocLookup_mem hlk, rfl⟩
            refine ⟨c2, child2, u, ?_, htk, hwlk⟩
            simp only [assocLookup, if_neg hc2]
            exact hlk
  · intro p al qo c child rest hcond ih hwfc hnd hal toks hok t ht
    rw [collect_children, if_neg hcond] at hok
    simp only [List.map_cons, List.nodup_cons] at hnd
    obtain ⟨c2, child2, u, hlk, htk, hwlk⟩ := ih
      (fun d x hm => hwfc d x (List.mem_cons_of_mem _ hm)) hnd.2 hal toks hok t ht
    have hc2 : c ≠ c2 := by
      intro heq
      apply hnd.1
      subst heq
      exact List.mem_map.mpr ⟨(c, child2), assocLookup_mem hlk, rfl⟩
    refine ⟨c2, child2, u, ?_, htk, hwlk⟩
    simp only [assocLookup, if_neg hc2]
    exact hlk

/-- Completeness of the traversal when the free-text shortcut is not
taken: any token lying at a path that is a valid walk is collected. -/

theorem collect_complete {σ : Type} (impl : ParserImpl σ) (jft : List Nat) :
    ∀ (p : σ) (node : TokenizerPrefixTreeNode) (sc : Option String),
      sc ≠ some "json_freetext" →
      ∀ toks, collect_allowed_tokens impl jft p node sc = .ok toks →
      ∀ t u, t ∈ tokensAtNode node u → validWalk impl p u = true → t ∈ toks := by
  refine collect_allowed_tokens.induct impl jft
    (fun p node sc => sc ≠ some "json_freetext" →
      ∀ toks, collect_allowed_tokens impl jft p node sc = .ok toks →
      ∀ t u, t ∈ tokensAtNode node u → validWalk impl p u = true → t ∈ toks)
    (fun p al qo l => qo = false →
      impl.get_allowed_characters p = .ok al →
      ∀ toks, collect_children impl jft p al qo l = .ok toks →
      ∀ t c child u p2, assocLookup c l = some child → c ∈ al →
        impl.add_character p c = .ok p2 → t ∈ tokensAtNode child u →
        validWalk impl p2 u = true → t ∈ toks)
    ?_ ?_ ?_ ?_
  · intro p shortcut ts children ih hsc toks hok t u htk hwlk
    have hqo : decide (shortcut = some "json_freetext") = false := by
      simp [hsc]
    rw [collect_allowed_tokens] at hok
    cases hal : impl.get_allowed_characters p with
    | error e => rw [hal] at hok; simp at hok
    | ok al =>
      rw [hal] at hok
      simp only [except_ok_bind] at hok
      cases hch : collect_children impl jft p al
          (decide (shortcut = some "json_freetext")) children with
      | error e => rw [hch] at hok; simp at hok
      | ok explored =>
        rw [hch] at hok
        simp only [except_ok_bind, except_pure_eq, Except.ok.injEq] at hok
        subst hok
        cases u with
        | nil =>
          rw [tokensAtNode_nil] at htk
          exact List.mem_append.mpr (Or.inl (List.mem_append.mpr (Or.inl htk)))
        | cons c us =>
          rw [tokensAtNode_cons] at htk
          cases hlk : assocLookup c children with
          | none => rw [hlk] at htk; simp at htk
          | some child =>
            rw [hlk] at htk
            simp only [validWalk, hal] at hwlk
            by_cases hc : c ∈ al
            · rw [if_pos hc] at hwlk
              cases hadd : impl.add_character p c with
              | error e => rw [hadd] at hwlk; simp at hwlk
              | ok p2 =>
                rw [hadd] at hwlk
                have := ih al hqo hal explored hch t c child us p2 hlk hc hadd htk hwlk
                exact List.mem_append.mpr (Or.inr this)
            · rw [if_neg hc] at hwlk
              simp at hwlk
  · intro p al qo hqo hal toks hok t c child u p2 hlk hc hadd htk hwlk
    simp [assocLookup] at hlk
  · intro p al qo c child rest hcond ih1 ih2 hqo hal toks hok t c2 child2 u p2
      hlk hc2 hadd htk hwlk
    rw [collect_children, if_pos hcond] at hok
    cases hap : impl.add_character p c with
    | error e => rw [hap] at hok; simp at hok
    | ok p0 =>
      rw [hap] at hok
      simp only [except_ok_bind] at hok
      cases hsub : collect_allowed_tokens impl jft p0 child none with
      | error e => rw [hsub] at hok; simp at hok
      | ok sub =>
        rw [hsub] at hok
        simp only [except_ok_bind] at hok
        cases hmore : collect_children impl jft p al qo rest with
        | error e => rw [hmore] at hok; simp at hok
        | ok more =>
          rw [hmore] at hok
          simp only [except_ok_bind, except_pure_eq, Except.ok.injEq] at hok
          subst hok
          by_cases hcc : c = c2
          · subst hcc
            rw [assocLookup, if_pos rfl] at hlk
            injection hlk with hlk
            subst hlk
            rw [hadd] at hap
            injection hap with hap
            subst hap
            have := ih1 p2 (by simp) sub hsub t u htk hwlk
            exact List.mem_append.mpr (Or.inl this)
          · rw [assocLookup, if_neg hcc] at hlk
            have := ih2 hqo hal more hmore t c2 child2 u p2 hlk hc2 hadd htk hwlk
            exact List.mem_append.mpr (Or.inr this)
  · intro p al qo c child rest hcond ih hqo hal toks hok t c2 child2 u p2
      hlk hc2 hadd htk hwlk
    subst hqo
    simp only [Bool.false_eq_true, false_implies, and_true] at hcond
    rw [collect_children, if_neg (by simpa using hcond)] at hok
    by_cases hcc : c = c2
    · subst hcc
      exact absurd hc2 hcond
    · rw [assocLookup, if_neg hcc] at hlk
      exact ih rfl hal toks hok t c2 child2 u p2 hlk hc2 hadd htk hwlk

/-- Bisimilar states produce identical traversal results. -/

theorem collect_bisim {σ : Type} (impl : ParserImpl σ) (jft : List Nat)
    {R : σ → σ → Prop} (hR : IsBisim impl R) :
    ∀ (p : σ) (node : TokenizerPrefixTreeNode) (sc : Option String),
      ∀ q, R p q →
        collect_allowed_tokens impl jft p node sc
          = collect_allowed_tokens impl jft q node sc := by
  refine collect_allowed_tokens.induct impl jft
    (fun p node sc => ∀ q, R p q →
      collect_allowed_tokens impl jft p node sc
        = collect_allowed_tokens impl jft q node sc)
    (fun p al qo l => ∀ q, R p q →
      collect_children impl jft p al qo l
        = collect_children impl jft q al qo l)
    ?_ ?_ ?_ ?_
  · intro p shortcut ts children ih q hq
    have hga : impl.get_allowed_characters p = impl.get_allowed_characters q :=
      (hR p q hq).1
    simp only [collect_allowed_tokens]
    rw [← hga]
    cases impl.get_allowed_characters p with
    | error e => simp
    | ok al =>
      simp only [except_ok_bind]
      rw [ih al q hq]
  · intro p al qo q hq
    simp only [collect_children]
  · intro p al qo c child rest hcond ih1 ih2 q hq
    simp only [collect_children, if_pos hcond]
    have hrel := (hR p q hq).2.2.2.2 c
    cases hap : impl.add_character p c with
    | error e =>
      cases haq : impl.add_character q c with
      | error e2 =>
        rw [hap, haq] at hrel
        simp only [ExceptRel] at hrel
        subst hrel
        simp
      | ok q2 =>
        rw [hap, haq] at hrel
        simp [ExceptRel] at hrel
    | ok p2 =>
      cases haq : impl.add_character q c with
      | error e2 =>
        rw [hap, haq] at hrel
        simp [ExceptRel] at hrel
      | ok q2 =>
        rw [hap, haq] at hrel
        simp only [ExceptRel] at hrel
        simp only [except_ok_bind]
        rw [ih1 p2 q2 hrel, ih2 q hq]
  · intro p al qo c child rest hcond ih q hq
    simp only [collect_children, if_neg hcond]
    exact ih q hq

/-- Bisimilar states validate exactly the same walks. -/

theorem validWalk_bisim {σ : Type} {impl : ParserImpl σ}
    {R : σ → σ → Prop} (hR : IsBisim impl R) :
    ∀ (u : List Char) (p q : σ), R p q →
      validWalk impl p u = validWalk impl q u := by
  intro u
  induction u with
  | nil => intro p q _; rfl
  | cons c cs ih =>
    intro p q hq
    have hga : impl.get_allowed_characters p = impl.get_allowed_characters q :=
      (hR p q hq).1
    simp only [validWalk]
    rw [← hga]
    cases impl.get_allowed_characters p with
    | error e => rfl
    | ok al =>
      by_cases hc : c ∈ al
      · simp only [if_pos hc]
        have hrel := (hR p q hq).2.2.2.2 c
        cases hap : impl.add_character p c with
        | error e =>
          cases haq : impl.add_character q c with
          | error e2 => rfl
          | ok q2 =>
            rw [hap, haq] at hrel
            simp [ExceptRel] at hrel
        | ok p2 =>
          cases haq : impl.add_character q c with
          | error e2 =>
            rw [hap, haq] at hrel
            simp [ExceptRel] at hrel
          | ok q2 =>
            rw [hap, haq] at hrel
            simp only [ExceptRel] at hrel
            exact ih p2 q2 hrel
      · simp only [if_neg hc]

/-- Bisimilar states give the same traversal-plus-end-marker result. -/

theorem fresh_allowed_bisim {σ : Type} {impl : ParserImpl σ}
    (tree : TokenizerPrefixTree) (eos_token_id : Nat) {p q : σ}
    (hb : Bisim impl p q) :
    fresh_allowed impl tree eos_token_id p = fresh_allowed impl tree eos_token_id q := by
  obtain ⟨R, hR, hpq⟩ := hb
  rw [fresh_allowed, fresh_allowed]
  rw [← (hR p q hpq).2.2.1, ← (hR p q hpq).2.1]
  cases impl.shortcut_key p with
  | error e => rfl
  | ok sc =>
    simp only [except_ok_bind]
    rw [collect_bisim impl tree.json_freetext_tokens hR p tree.root sc q hpq]

theorem fresh_allowed_total {σ : Type} {impl : ParserImpl σ} (htot : TotalImpl impl)
    (tree : TokenizerPrefixTree) (eos_token_id : Nat) (p : σ) :
    ∃ l, fresh_allowed impl tree eos_token_id p = .ok l := by
  obtain ⟨sc, hsc⟩ := (htot p).2.2.2.2
  obtain ⟨collected, hcol⟩ := collect_total htot tree.json_freetext_tokens p tree.root sc
  obtain ⟨ce, hce⟩ := (htot p).2.2.1
  rw [fresh_allowed]
  simp only [hsc, except_ok_bind, hcol, hce, except_pure_eq]
  exact ⟨_, rfl⟩

/-- On a cache hit _compute_allowed_tokens returns the cached list and
changes nothing. -/

theorem compute_hit {σ : Type} (te : TokenEnforcer σ) (st : OutputTensorState σ)
    (k : String) (cached : List Nat)
    (hck : te.impl.cache_key st.parser = .ok (some k))
    (hlk : assocLookup k te.allowed_token_cache = some cached) :
    compute_allowed_tokens te st = (.ok (), { st with allowed_tokens := cached }, te) := by
  have hbody : compute_allowed_tokens_body te st = .ok (cached, te.allowed_token_cache) := by
    rw [compute_allowed_tokens_body]
    simp only [hck, except_ok_bind, hlk, except_pure_eq]
  rw [compute_allowed_tokens, hbody]

/-- Cache miss with a non-null key and a non-empty traversal result:
return it and store it under the key. -/

theorem compute_miss_key {σ : Type} (te : TokenEnforcer σ) (st : OutputTensorState σ)
    (k : String) (l : List Nat)
    (hck : te.impl.cache_key st.parser = .ok (some k))
    (hlk : assocLookup k te.allowed_token_cache = none)
    (hfr : fresh_allowed te.impl te.tokenizer_tree te.eos_token_id st.parser = .ok l)
    (hne : l ≠ []) :
    compute_allowed_tokens te st
      = (.ok (), { st with allowed_tokens := l },
         { te with allowed_token_cache := (k, l) :: te.allowed_token_cache }) := by
  have hbody : compute_allowed_tokens_body te st
      = .ok (l, (k, l) :: te.allowed_token_cache) := by
    rw [compute_allowed_tokens_body]
    simp only [hck, except_ok_bind, hlk, hfr, if_neg hne, except_pure_eq]
  rw [compute_allowed_tokens, hbody]

/-- Cache miss with a non-null key but an empty traversal result: the
internal ValueError is caught, the allowed set is forced to the end marker
and nothing is cached. -/

theorem compute_miss_key_empty {σ : Type} (te : TokenEnforcer σ)
    (st : OutputTensorState σ) (k : String)
    (hck : te.impl.cache_key st.parser = .ok (some k))
    (hlk : assocLookup k te.allowed_token_cache = none)
    (hfr : fresh_allowed te.impl te.tokenizer_tree te.eos_token_id st.parser = .ok []) :
    compute_allowed_tokens te st
      = (.ok (), { st with allowed_tokens := [te.eos_token_id] }, te) := by
  have hbody : compute_allowed_tokens_body te st
      = .error (.other "Parser reached state with no allowed tokens") := by
    rw [compute_allowed_tokens_body]
    simp only [hck, except_ok_bind, hlk, hfr, if_pos rfl, if_true, except_throw_eq]
  rw [compute_allowed_tokens, hbody]

/-- Null cache key, non-empty traversal: return it, read and write no cache. -/

theorem compute_nokey {σ : Type} (te : TokenEnforcer σ) (st : OutputTensorState σ)
    (l : List Nat)
    (hck : te.impl.cache_key st.parser = .ok none)
    (hfr : fresh_allowed te.impl te.tokenizer_tree te.eos_token_id st.parser = .ok l)
    (hne : l ≠ []) :
    compute_allowed_tokens te st = (.ok (), { st with allowed_tokens := l }, te) := by
  have hbody : compute_allowed_tokens_body te st = .ok (l, te.allowed_token_cache) := by
    rw [compute_allowed_tokens_body]
    simp only [hck, except_ok_bind, hfr, if_neg hne, except_pure_eq]
  rw [compute_allowed_tokens, hbody]

/-- Null cache key, empty traversal: forced to the end marker. -/

theorem compute_nokey_empty {σ : Type} (te : TokenEnforcer σ)
    (st : OutputTensorState σ)
    (hck : te.impl.cache_key st.parser = .ok none)
    (hfr : fresh_allowed te.impl te.tokenizer_tree te.eos_token_id st.parser = .ok []) :
    compute_allowed_tokens te st
      = (.ok (), { st with allowed_tokens := [te.eos_token_id] }, te) := by
  have hbody : compute_allowed_tokens_body te st
      = .error (.other "Parser reached state with no allowed tokens") := by
    rw [compute_allowed_tokens_body]
    simp only [hck, except_ok_bind, hfr, if_pos rfl, if_true, except_throw_eq]
  rw [compute_allowed_tokens, hbody]

/-- With a never-raising grammar, _compute_allowed_tokens always succeeds
and its effect is fully described by the traversal result. -/

theorem compute_total_spec {σ : Type} (te : TokenEnforcer σ)
    (st : OutputTensorState σ) (htot : TotalImpl te.impl)
    (hcc : CacheKeyContract te.impl)
    (hinv : ∀ k toks, (k, toks) ∈ te.allowed_token_cache →
      toks ≠ [] ∧ ∃ p, te.impl.cache_key p = .ok (some k) ∧
        fresh_allowed te.impl te.tokenizer_tree te.eos_token_id p = .ok toks) :
    ∃ l C, fresh_allowed te.impl te.tokenizer_tree te.eos_token_id st.parser = .ok l ∧
      compute_allowed_tokens te st
        = (.ok (), { st with allowed_tokens := (if l = [] then [te.eos_token_id] else l) },
           { te with allowed_token_cache := C }) ∧
      (∀ k toks, (k, toks) ∈ C →
        toks ≠ [] ∧ ∃ p, te.impl.cache_key p = .ok (some k) ∧
          fresh_allowed te.impl te.tokenizer_tree te.eos_token_id p = .ok toks) := by
  obtain ⟨l, hfr⟩ := fresh_allowed_total htot te.tokenizer_tree te.eos_token_id st.parser
  obtain ⟨ck, hck⟩ := (htot st.parser).2.2.2.1
  cases ck with
  | some k =>
    cases hlk : assocLookup k te.allowed_token_cache with
    | some cached =>
      obtain ⟨hne, p, hpk, hpf⟩ := hinv k cached (assocLookup_mem hlk)
      have hfp : fresh_allowed te.impl te.tokenizer_tree te.eos_token_id st.parser
          = .ok cached := by
        rw [fresh_allowed_bisim te.tokenizer_tree te.eos_token_id (hcc st.parser p k hck hpk)]
        exact hpf
      rw [hfp] at hfr
      injection hfr with hfr
      subst hfr
      refine ⟨cached, te.allowed_token_cache, hfp, ?_, hinv⟩
      rw [compute_hit te st k cached hck hlk]
      simp [if_neg hne]
    | none =>
      by_cases hne : l = []
      · subst hne
        refine ⟨[], te.allowed_token_cache, hfr, ?_, hinv⟩
        rw [compute_miss_key_empty te st k hck hlk hfr]
        simp
      · refine ⟨l, (k, l) :: te.allowed_token_cache, hfr, ?_, ?_⟩
        · rw [compute_miss_key te st k l hck hlk hfr hne]
          simp [if_neg hne]
        · intro k2 toks hm
          rcases List.mem_cons.mp hm with h | h
          · injection h with h1 h2
            subst h1
            subst h2
            exact ⟨hne, st.parser, hck, hfr⟩
          · exact hinv k2 toks h
  | none =>
    by_cases hne : l = []
    · subst hne
      refine ⟨[], te.allowed_token_cache, hfr, ?_, hinv⟩
      rw [compute_nokey_empty te st hck hfr]
      simp
    · refine ⟨l, te.allowed_token_cache, hfr, ?_, hinv⟩
      rw [compute_nokey te st l hck hfr hne]
      simp [if_neg hne]

theorem get_hit {σ : Type} (te : TokenEnforcer σ) (seq : List Nat)
    (st : OutputTensorState σ) (h : assocLookup seq te.prefix_states = some st) :
    get_allowed_tokens te seq = (.ok st.allowed_tokens, te) := by
  rw [get_allowed_tokens]
  simp only [h]

theorem get_fresh {σ : Type} (te : TokenEnforcer σ) (seq : List Nat)
    (h1 : assocLookup seq te.prefix_states = none)
    (h2 : assocLookup seq.dropLast te.prefix_states = none) :
    get_allowed_tokens te seq
      = step_with te seq
          { str_so_far := te.decoder seq, parser := te.rootParser, allowed_tokens := [] } := by
  rw [get_allowed_tokens]
  simp only [h1, h2]

theorem get_incr {σ : Type} (te : TokenEnforcer σ) (seq : List Nat)
    (prev : OutputTensorState σ) (ns : OutputTensorState σ)
    (h1 : assocLookup seq te.prefix_states = none)
    (h2 : assocLookup seq.dropLast te.prefix_states = some prev)
    (happ : apply_new_characters te prev seq = .ok ns) :
    get_allowed_tokens te seq = step_with te seq ns := by
  rw [get_allowed_tokens]
  simp only [h1, h2, happ]

theorem get_incr_error {σ : Type} (te : TokenEnforcer σ) (seq : List Nat)
    (prev : OutputTensorState σ) (e : PyError)
    (h1 : assocLookup seq te.prefix_states = none)
    (h2 : assocLookup seq.dropLast te.prefix_states = some prev)
    (happ : apply_new_characters te prev seq = .error e) :
    get_allowed_tokens te seq = (.error e, te) := by
  rw [get_allowed_tokens]
  simp only [h1, h2, happ]

theorem step_with_eq {σ : Type} (te : TokenEnforcer σ) (key : List Nat)
    (st : OutputTensorState σ) (res : Except PyError Unit)
    (stA : OutputTensorState σ) (te2 : TokenEnforcer σ)
    (h : compute_allowed_tokens te st = (res, stA, te2)) :
    step_with te key st
      = (res.map (fun _ => stA.allowed_tokens),
         { te2 with prefix_states := (key, stA) :: te2.prefix_states }) := by
  rw [step_with, h]

theorem apply_new_characters_ok {σ : Type} (te : TokenEnforcer σ)
    (st : OutputTensorState σ) (seq : List Nat) (q : σ)
    (h : apply_characters te.impl st.parser
        ((te.decoder seq).drop st.str_so_far.length) = .ok q) :
    apply_new_characters te st seq
      = .ok { str_so_far := te.decoder seq, parser := q, allowed_tokens := [] } := by
  rw [apply_new_characters]
  simp only [h, except_ok_bind, except_pure_eq]

theorem compute_cache_only {σ : Type} (te : TokenEnforcer σ)
    (st : OutputTensorState σ) :
    ∃ C stA res, compute_allowed_tokens te st
      = (res, stA, { te with allowed_token_cache := C }) := by
  cases hb : compute_allowed_tokens_body te st with
  | ok pair =>
    obtain ⟨a, c⟩ := pair
    rw [compute_allowed_tokens, hb]
    exact ⟨c, _, _, rfl⟩
  | error e =>
    cases e with
    | lmfe m =>
      rw [compute_allowed_tokens, hb]
      exact ⟨te.allowed_token_cache, _, _, rfl⟩
    | other m =>
      rw [compute_allowed_tokens, hb]
      exact ⟨te.allowed_token_cache, _, _, rfl⟩

/-- A query only ever grows the two caches: every other field of the
session is untouched. -/

theorem get_fields {σ : Type} (te : TokenEnforcer σ) (seq : List Nat) :
    ∃ P C, (get_allowed_tokens te seq).2
      = { te with prefix_states := P, allowed_token_cache := C } := by
  cases h1 : assocLookup seq te.prefix_states with
  | some st =>
    rw [get_hit te seq st h1]
    exact ⟨te.prefix_states, te.allowed_token_cache, rfl⟩
  | none =>
    cases h2 : assocLookup seq.dropLast te.prefix_states with
    | none =>
      rw [get_fresh te seq h1 h2]
      obtain ⟨C, stA, res, hc⟩ := compute_cache_only te
        { str_so_far := te.decoder seq, parser := te.rootParser, allowed_tokens := [] }
      rw [step_with_eq _ _ _ _ _ _ hc]
      exact ⟨_, C, rfl⟩
    | some prev =>
      cases happ : apply_new_characters te prev seq with
      | error e =>
        rw [get_incr_error te seq prev e h1 h2 happ]
        exact ⟨te.prefix_states, te.allowed_token_cache, rfl⟩
      | ok ns =>
        rw [get_incr te seq prev ns h1 h2 happ]
        obtain ⟨C, stA, res, hc⟩ := compute_cache_only te ns
        rw [step_with_eq _ _ _ _ _ _ hc]
        exact ⟨_, C, rfl⟩

theorem sessionInv_init {σ : Type} (regular_tokens : List (Nat × List Char))
    (impl : ParserImpl σ) (parser0 : σ) (decoder : List Nat → List Char)
    (eos_token_id : Nat) :
    SessionInv regular_tokens
      (TokenEnforcer.init regular_tokens impl parser0 decoder eos_token_id) := by
  refine ⟨rfl, ?_, ?_⟩
  · intro k toks hm
    simp [TokenEnforcer.init] at hm
  · intro seq st hm
    simp [TokenEnforcer.init] at hm

theorem step_with_inv {σ : Type} {regular_tokens : List (Nat × List Char)}
    {te : TokenEnforcer σ} (htot : TotalImpl te.impl)
    (hcc : CacheKeyContract te.impl) (hinv : SessionInv regular_tokens te)
    (key : List Nat) (st0 : OutputTensorState σ) :
    SessionInv regular_tokens (step_with te key st0).2 := by
  obtain ⟨l, C, hfr, hcomp, hC⟩ := compute_total_spec te st0 htot hcc hinv.cache_inv
  rw [step_with_eq _ _ _ _ _ _ hcomp]
  refine ⟨hinv.tree_eq, ?_, ?_⟩
  · intro k toks hm
    exact hC k toks hm
  · intro seq st hm
    rcases List.mem_cons.mp hm with h | h
    · injection h with h1 h2
      subst h2
      exact ⟨l, hfr, rfl⟩
    · exact hinv.state_inv seq st h

theorem sessionInv_step {σ : Type} {regular_tokens : List (Nat × List Char)}
    {te : TokenEnforcer σ} (htot : TotalImpl te.impl)
    (hcc : CacheKeyContract te.impl) (hinv : SessionInv regular_tokens te)
    (seq : List Nat) :
    SessionInv regular_tokens (get_allowed_tokens te seq).2 := by
  cases h1 : assocLookup seq te.prefix_states with
  | some st =>
    rw [get_hit te seq st h1]
    exact hinv
  | none =>
    cases h2 : assocLookup seq.dropLast te.prefix_states with
    | none =>
      rw [get_fresh te seq h1 h2]
      exact step_with_inv htot hcc hinv seq _
    | some prev =>
      cases happ : apply_new_characters te prev seq with
      | error e =>
        rw [get_incr_error te seq prev e h1 h2 happ]
        exact hinv
      | ok ns =>
        rw [get_incr te seq prev ns h1 h2 happ]
        exact step_with_inv htot hcc hinv seq ns

/-- Any reachable session satisfies the invariant and keeps its
construction-time fields. -/

theorem reachable_sessionInv {σ : Type} {regular_tokens : List (Nat × List Char)}
    {impl : ParserImpl σ} {parser0 : σ} {decoder : List Nat → List Char}
    {eos_token_id : Nat} {te : TokenEnforcer σ}
    (htot : TotalImpl impl) (hcc : CacheKeyContract impl)
    (hr : Reachable regular_tokens impl parser0 decoder eos_token_id te) :
    SessionInv regular_tokens te ∧ te.impl = impl ∧ te.rootParser = parser0 ∧
      te.decoder = decoder ∧ te.eos_token_id = eos_token_id := by
  induction hr with
  | init =>
    exact ⟨sessionInv_init regular_tokens impl parser0 decoder eos_token_id,
      rfl, rfl, rfl, rfl⟩
  | step te2 seq hr2 ih =>
    obtain ⟨hinv, himpl, hroot, hdec, heos⟩ := ih
    obtain ⟨P, C, hPC⟩ := get_fields te2 seq
    refine ⟨?_, ?_⟩
    · exact sessionInv_step (himpl ▸ htot) (himpl ▸ hcc) hinv seq
    · rw [hPC]
      exact ⟨himpl, hroot, hdec, heos⟩

/-- Soundness of the traversal-plus-end-marker result over the built trie:
non-end-marker tokens decode to valid continuations (the free-text bulk
additions via the shortcut contract), and the end marker is present
whenever the state can terminate. -/

theorem fresh_allowed_sound {σ : Type} {impl : ParserImpl σ}
    {regular_tokens : List (Nat × List Char)} {eos_token_id : Nat} {p : σ}
    {l : List Nat} (hft : FreetextContract impl regular_tokens)
    (hfr : fresh_allowed impl (TokenizerPrefixTree.build regular_tokens)
        eos_token_id p = .ok l) :
    (∀ t, t ∈ l → t ≠ eos_token_id →
      ∃ s, (t, s) ∈ regular_tokens ∧ validWalk impl p s = true) ∧
    (impl.can_end p = .ok true → eos_token_id ∈ l) := by
  rw [fresh_allowed] at hfr
  cases hsck : impl.shortcut_key p with
  | error e => rw [hsck] at hfr; simp at hfr
  | ok sc =>
    rw [hsck] at hfr
    simp only [except_ok_bind] at hfr
    cases hcol : collect_allowed_tokens impl
        (TokenizerPrefixTree.build regular_tokens).json_freetext_tokens p
        (TokenizerPrefixTree.build regular_tokens).root sc with
    | error e => rw [hcol] at hfr; simp at hfr
    | ok collected =>
      rw [hcol] at hfr
      simp only [except_ok_bind] at hfr
      cases hce : impl.can_end p with
      | error e => rw [hce] at hfr; simp at hfr
      | ok ce =>
        rw [hce] at hfr
        simp only [except_ok_bind, except_pure_eq, Except.ok.injEq] at hfr
        subst hfr
        constructor
        · intro t ht hne
          rcases List.mem_append.mp ht with ht | ht
          · rcases collect_sound impl _ p _ sc
                (wellFormed_build regular_tokens) collected hcol t ht with
              ⟨u, htk, hw⟩ | ⟨hsc, hjf⟩
            · exact ⟨u, (mem_tokensAtNode_build regular_tokens t u).mp htk, hw⟩
            · subst hsc
              obtain ⟨s, hmem, hq⟩ :=
                (mem_json_freetext_build regular_tokens t).mp hjf
              exact ⟨s, hmem, hft p hsck t s hmem hq⟩
          · cases ce with
            | true => simp at ht; exact absurd ht hne
            | false => simp at ht
        · intro hcan
          injection hcan with hcan
          subst hcan
          simp
/-- Completeness of the traversal-plus-end-marker result when the free-text
shortcut is not active. -/

theorem fresh_allowed_complete {σ : Type} {impl : ParserImpl σ}
    {regular_tokens : List (Nat × List Char)} {eos_token_id : Nat} {p : σ}
    {l : List Nat} {sc : Option String}
    (hsck : impl.shortcut_key p = .ok sc) (hsc : sc ≠ some "json_freetext")
    (hfr : fresh_allowed impl (TokenizerPrefixTree.build regular_tokens)
        eos_token_id p = .ok l)
    {t : Nat} {s : List Char} (hmem : (t, s) ∈ regular_tokens)
    (hw : validWalk impl p s = true) : t ∈ l := by
  rw [fresh_allowed] at hfr
  rw [hsck] at hfr
  simp only [except_ok_bind] at hfr
  cases hcol : collect_allowed_tokens impl
      (TokenizerPrefixTree.build regular_tokens).json_freetext_tokens p
      (TokenizerPrefixTree.build regular_tokens).root sc with
  | error e => rw [hcol] at hfr; simp at hfr
  | ok collected =>
    rw [hcol] at hfr
    simp only [except_ok_bind] at hfr
    cases hce : impl.can_end p with
    | error e => rw [hce] at hfr; simp at hfr
    | ok ce =>
      rw [hce] at hfr
      simp only [except_ok_bind, except_pure_eq, Except.ok.injEq] at hfr
      subst hfr
      refine List.mem_append.mpr (Or.inl ?_)
      exact collect_complete impl _ p _ sc hsc collected hcol t s
        ((mem_tokensAtNode_build regular_tokens t s).mpr hmem) hw

/-- On a reachable session with a never-raising, cache-contract-compliant
grammar, every successful query's result is the stored state's allowed
list, which is the traversal result of that state's grammar parser (with
the empty-result fallback). -/

theorem get_result_spec {σ : Type} {regular_tokens : List (Nat × List Char)}
    {impl : ParserImpl σ} {parser0 : σ} {decoder : List Nat → List Char}
    {eos_token_id : Nat} {te : TokenEnforcer σ}
    (htot : TotalImpl impl) (hcc : CacheKeyContract impl)
    (hr : Reachable regular_tokens impl parser0 decoder eos_token_id te)
    (seq : List Nat) (toks : List Nat) (te2 : TokenEnforcer σ)
    (hget : get_allowed_tokens te seq = (.ok toks, te2)) :
    ∃ st, assocLookup seq te2.prefix_states = some st ∧
      toks = st.allowed_tokens ∧
      ∃ l, fresh_allowed impl (TokenizerPrefixTree.build regular_tokens)
          eos_token_id st.parser = .ok l ∧
        toks = (if l = [] then [eos_token_id] else l) := by
  obtain ⟨hinv, himpl, hroot, hdec, heos⟩ := reachable_sessionInv htot hcc hr
  have htot2 : TotalImpl te.impl := himpl ▸ htot
  have hcc2 : CacheKeyContract te.impl := himpl ▸ hcc
  have hrw : ∀ (p : σ), fresh_allowed te.impl te.tokenizer_tree te.eos_token_id p
      = fresh_allowed impl (TokenizerPrefixTree.build regular_tokens) eos_token_id p := by
    intro p
    rw [himpl, hinv.tree_eq, heos]
  cases h1 : assocLookup seq te.prefix_states with
  | some st =>
    rw [get_hit te seq st h1] at hget
    injection hget with hg1 hg2
    injection hg1 with hg1
    subst hg2
    obtain ⟨l, hfr, hal⟩ := hinv.state_inv seq st (assocLookup_mem h1)
    rw [hrw st.parser] at hfr
    rw [heos] at hal
    exact ⟨st, h1, hg1.symm, l, hfr, hg1 ▸ hal⟩
  | none =>
    have hstep : ∀ (st0 : OutputTensorState σ),
        step_with te seq st0 = (.ok toks, te2) →
        ∃ st, assocLookup seq te2.prefix_states = some st ∧
          toks = st.allowed_tokens ∧
          ∃ l, fresh_allowed impl (TokenizerPrefixTree.build regular_tokens)
              eos_token_id st.parser = .ok l ∧
            toks = (if l = [] then [eos_token_id] else l) := by
      intro st0 hsw
      obtain ⟨l, C, hfr, hcomp, hC⟩ := compute_total_spec te st0 htot2 hcc2 hinv.cache_inv
      rw [step_with_eq _ _ _ _ _ _ hcomp] at hsw
      simp only [except_map_ok] at hsw
      injection hsw with hg1 hg2
      injection hg1 with hg1
      subst hg2
      refine ⟨{ st0 with
          allowed_tokens := (if l = [] then [te.eos_token_id] else l) }, ?_, ?_, l, ?_, ?_⟩
      · simp [assocLookup]
      · exact hg1.symm
      · rw [← hrw st0.parser]
        exact hfr
      · rw [← hg1, heos]
    cases h2 : assocLookup seq.dropLast te.prefix_states with
    | none =>
      rw [get_fresh te seq h1 h2] at hget
      exact hstep _ hget
    | some prev =>
      cases happ : apply_new_characters te prev seq with
      | error e =>
        rw [get_incr_error te seq prev e h1 h2 happ] at hget
        simp at hget
      | ok ns =>
        rw [get_incr te seq prev ns h1 h2 happ] at hget
        exact hstep ns hget

/-- A decoded suffix containing a disallowed character drives the state to
the force-stop state for the rest of the walk. -/

theorem apply_characters_divergence {σ : Type} {impl : ParserImpl σ}
    (hfs : ForceStopSpec impl) (u : List Char) (c : Char) (v : List Char)
    (p p2 : σ) (al : List Char)
    (hw : walkEnd impl p u = some p2)
    (hal : impl.get_allowed_characters p2 = .ok al) (hc : c ∉ al) :
    apply_characters impl p (u ++ c :: v) = .ok impl.force_stop := by
  rw [apply_characters_append, walkEnd_apply_characters impl u p p2 hw]
  simp only [except_ok_bind]
  rw [apply_characters]
  simp only [hal, except_ok_bind, if_neg hc]
  exact apply_characters_force_stop hfs v

/-- On the force-stop state the traversal yields exactly the end marker
(when the trie root holds no empty-string tokens). -/

theorem fresh_allowed_force_stop {σ : Type} {impl : ParserImpl σ}
    (hfs : ForceStopSpec impl) (tree : TokenizerPrefixTree) (eos_token_id : Nat)
    (hroot : tree.root.tokens = []) :
    fresh_allowed impl tree eos_token_id impl.force_stop = .ok [eos_token_id] := by
  obtain ⟨root, jft⟩ := tree
  obtain ⟨ts, chs⟩ := root
  simp only [TokenizerPrefixTreeNode.tokens] at hroot
  subst hroot
  rw [fresh_allowed]
  simp only [hfs.2.2.2, except_ok_bind]
  rw [collect_no_allowed impl jft impl.force_stop [] chs none hfs.1]
  simp only [except_ok_bind, hfs.2.1, except_pure_eq]
  simp

theorem list_drop_append_of_le {α : Type} (n : Nat) (l1 l2 : List α)
    (h : n ≤ l1.length) : (l1 ++ l2).drop n = l1.drop n ++ l2 := by
  rw [List.drop_append_eq_append_drop]
  have h0 : n - l1.length = 0 := by omega
  rw [h0]
  rfl

/-- A recognized LMFormatEnforcerException raised inside the try-block
re-raises unchanged and mutates nothing. -/

theorem compute_lmfe {σ : Type} (te : TokenEnforcer σ) (st : OutputTensorState σ)
    (m : String) (hb : compute_allowed_tokens_body te st = .error (.lmfe m)) :
    compute_allowed_tokens te st = (.error (.lmfe m), st, te) := by
  rw [compute_allowed_tokens, hb]

/-- Any other exception raised inside the try-block is caught and the
state's allowed set is forced to the end marker alone; nothing is cached. -/

theorem compute_other {σ : Type} (te : TokenEnforcer σ) (st : OutputTensorState σ)
    (m : String) (hb : compute_allowed_tokens_body te st = .error (.other m)) :
    compute_allowed_tokens te st
      = (.ok (), { st with allowed_tokens := [te.eos_token_id] }, te) := by
  rw [compute_allowed_tokens, hb]

theorem compute_body_nokey_error {σ : Type} (te : TokenEnforcer σ)
    (st : OutputTensorState σ) (e : PyError)
    (hck : te.impl.cache_key st.parser = .ok none)
    (hfr : fresh_allowed te.impl te.tokenizer_tree te.eos_token_id st.parser = .error e) :
    compute_allowed_tokens_body te st = .error e := by
  rw [compute_allowed_tokens_body]
  simp only [hck, except_ok_bind, hfr, except_error_bind]

theorem compute_state_fields {σ : Type} (te : TokenEnforcer σ)
    (st : OutputTensorState σ) :
    (compute_allowed_tokens te st).2.1.parser = st.parser ∧
    (compute_allowed_tokens te st).2.1.str_so_far = st.str_so_far := by
  cases hb : compute_allowed_tokens_body te st with
  | ok pair =>
    obtain ⟨a, c⟩ := pair
    rw [compute_allowed_tokens, hb]
    exact ⟨rfl, rfl⟩
  | error e =>
    cases e with
    | lmfe m => rw [compute_allowed_tokens, hb]; exact ⟨rfl, rfl⟩
    | other m => rw [compute_allowed_tokens, hb]; exact ⟨rfl, rfl⟩

/-- With a never-raising grammar, _compute_allowed_tokens never raises. -/

theorem compute_res_ok {σ : Type} (te : TokenEnforcer σ) (st : OutputTensorState σ)
    (htot : TotalImpl te.impl) :
    (compute_allowed_tokens te st).1 = .ok () := by
  obtain ⟨l, hfr⟩ := fresh_allowed_total htot te.tokenizer_tree te.eos_token_id st.parser
  obtain ⟨ck, hck⟩ := (htot st.parser).2.2.2.1
  cases ck with
  | some k =>
    cases hlk : assocLookup k te.allowed_token_cache with
    | some cached => rw [compute_hit te st k cached hck hlk]
    | none =>
      by_cases hne : l = []
      · subst hne
        rw [compute_miss_key_empty te st k hck hlk hfr]
      · rw [compute_miss_key te st k l hck hlk hfr hne]
  | none =>
    by_cases hne : l = []
    · subst hne
      rw [compute_nokey_empty te st hck hfr]
    · rw [compute_nokey te st l hck hfr hne]

/-- A state with a null cache key neither reads nor writes the cross-path
cache: the result is independent of the cache contents, which pass through
unchanged. -/

theorem compute_nokey_cache_blind {σ : Type} (te : TokenEnforcer σ)
    (st : OutputTensorState σ) (X : List (String × List Nat))
    (hck : te.impl.cache_key st.parser = .ok none) :
    compute_allowed_tokens { te with allowed_token_cache := X } st
      = ((compute_allowed_tokens te st).1, (compute_allowed_tokens te st).2.1,
         { te with allowed_token_cache := X }) := by
  have hck2 : ({ te with allowed_token_cache := X } : TokenEnforcer σ).impl.cache_key
      st.parser = .ok none := hck
  cases hfr : fresh_allowed te.impl te.tokenizer_tree te.eos_token_id st.parser with
  | ok l =>
    by_cases hne : l = []
    · subst hne
      rw [compute_nokey_empty te st hck hfr, compute_nokey_empty _ st hck2 hfr]
    · rw [compute_nokey te st l hck hfr hne, compute_nokey _ st l hck2 hfr hne]
  | error e =>
    have hb1 := compute_body_nokey_error te st e hck hfr
    have hb2 := compute_body_nokey_error { te with allowed_token_cache := X } st e hck2 hfr
    cases e with
    | lmfe m => rw [compute_lmfe te st m hb1, compute_lmfe _ st m hb2]
    | other m => rw [compute_other te st m hb1, compute_other _ st m hb2]

/-- Restricting the exploration to the delimiter under the shortcut is the
same as intersecting the allowed characters with the delimiter. -/

theorem collect_children_quote_filter {σ : Type} (impl : ParserImpl σ)
    (jft : List Nat) (p : σ) (al : List Char) :
    ∀ (l : List (Char × TokenizerPrefixTreeNode)),
      collect_children impl jft p al true l
        = collect_children impl jft p (al.filter (fun c => decide (c = '"'))) false l := by
  intro l
  induction l with
  | nil => rw [collect_children, collect_children]
  | cons hd tl ih =>
    obtain ⟨c, child⟩ := hd
    rw [collect_children, collect_children]
    by_cases hc : c ∈ al ∧ c = '"'
    · rw [if_pos ⟨hc.1, fun _ => hc.2⟩]
      rw [if_pos ⟨List.mem_filter.mpr ⟨hc.1, by simp [hc.2]⟩, by simp⟩]
      rw [ih]
    · have h1 : ¬(c ∈ al ∧ (true = true → c = '"')) := by
        intro hcon
        exact hc ⟨hcon.1, hcon.2 rfl⟩
      have h2 : ¬(c ∈ al.filter (fun c => decide (c = '"')) ∧ (false = true → c = '"')) := by
        intro hcon
        have := List.mem_filter.mp hcon.1
        exact hc ⟨this.1, by simpa using this.2⟩
      rw [if_neg h1, if_neg h2, ih]

theorem C1_soundness {σ : Type} (regular_tokens : List (Nat × List Char))
    (impl : ParserImpl σ) (parser0 : σ) (decoder : List Nat → List Char)
    (eos_token_id : Nat) (te te2 : TokenEnforcer σ) (seq toks : List Nat)
    (htot : TotalImpl impl) (hcc : CacheKeyContract impl)
    (hft : FreetextContract impl regular_tokens)
    (hr : Reachable regular_tokens impl parser0 decoder eos_token_id te)
    (hget : get_allowed_tokens te seq = (.ok toks, te2))
    (st : OutputTensorState σ)
    (hst : assocLookup seq te2.prefix_states = some st) :
    (∀ t, t ∈ toks → t ≠ eos_token_id →
      ∃ s, (t, s) ∈ regular_tokens ∧ validWalk impl st.parser s = true) ∧
    (impl.can_end st.parser = .ok true → eos_token_id ∈ toks) := by
  obtain ⟨st2, hst2, htoks, l, hfr, hif⟩ :=
    get_result_spec htot hcc hr seq toks te2 hget
  rw [hst2] at hst
  injection hst with hst
  subst hst
  obtain ⟨hsound, heos⟩ := fresh_allowed_sound hft hfr
  by_cases hl : l = []
  · subst hl
    simp only [if_pos rfl] at hif
    subst hif
    constructor
    · intro t ht hne
      simp at ht
      exact absurd ht hne
    · intro _
      simp
  · simp only [if_neg hl] at hif
    subst hif
    exact ⟨hsound, heos⟩

/-- C2, as stated, is false: under the free-text shortcut the traversal
only explores the delimiter character at the first level and the
precomputed free-text set excludes every token containing the delimiter,
so a valid token whose string has an interior delimiter (here a-quote-b)
is omitted.  The concrete violation: the session over the one-token
vocabulary (1, a-quote-b) with a free-text root state returns {0} (the end
marker alone) although token 1 is a character-by-character valid
continuation. -/

theorem C2_counterexample : ¬ C2Statement := by
  intro h
  have htot : TotalImpl CexImpl := by
    intro p
    exact ⟨⟨_, rfl⟩, fun c => ⟨_, rfl⟩, ⟨_, rfl⟩, ⟨_, rfl⟩, ⟨_, rfl⟩⟩
  have hcc : CacheKeyContract CexImpl := by
    intro p q k hp hq
    simp [CexImpl] at hp
  have hft : FreetextContract CexImpl CexVocab := by
    intro p hp t s hmem hq
    simp [CexVocab] at hmem
    rw [hmem.2] at hq
    simp at hq
  have hget : get_allowed_tokens CexSession [9]
      = (.ok [0], (get_allowed_tokens CexSession [9]).2) := by
    have h1 : (get_allowed_tokens CexSession [9]).1 = .ok [0] := by
      simp [get_allowed_tokens, CexSession, TokenEnforcer.init, CexVocab,
        TokenizerPrefixTree.build, add_token_to_tree, assocLookup, step_with,
        compute_allowed_tokens, compute_allowed_tokens_body, fresh_allowed,
        collect_allowed_tokens, collect_children, CexImpl]
    rw [← h1]
  have hst : assocLookup [9] ((get_allowed_tokens CexSession [9]).2).prefix_states
      = some { str_so_far := [], parser := 0, allowed_tokens := [0] } := by
    simp [get_allowed_tokens, CexSession, TokenEnforcer.init, CexVocab,
      TokenizerPrefixTree.build, add_token_to_tree, assocLookup, step_with,
      compute_allowed_tokens, compute_allowed_tokens_body, fresh_allowed,
      collect_allowed_tokens, collect_children, CexImpl]
  have hmem : ((1 : Nat), ['a', '"', 'b']) ∈ CexVocab := by simp [CexVocab]
  have hwalk : validWalk CexImpl (0 : Fin 5) ['a', '"', 'b'] = true := by decide
  have := h (Fin 5) CexVocab CexImpl 0 (fun _ => []) 0 CexSession
    (get_allowed_tokens CexSession [9]).2 [9] [0] htot hcc hft Reachable.init hget
    { str_so_far := [], parser := 0, allowed_tokens := [0] } hst 1 ['a', '"', 'b']
    hmem hwalk
  simp at this

/-- C2 amended: completeness of the returned set holds for every queried
state whose shortcut key is not the free-text tag (under the free-text
shortcut, valid tokens whose decoded string contains the delimiter may be
omitted). -/

theorem C2_completeness_no_shortcut {σ : Type} (regular_tokens : List (Nat × List Char))
    (impl : ParserImpl σ) (parser0 : σ) (decoder : List Nat → List Char)
    (eos_token_id : Nat) (te te2 : TokenEnforcer σ) (seq toks : List Nat)
    (htot : TotalImpl impl) (hcc : CacheKeyContract impl)
    (hr : Reachable regular_tokens impl parser0 decoder eos_token_id te)
    (hget : get_allowed_tokens te seq = (.ok toks, te2))
    (st : OutputTensorState σ)
    (hst : assocLookup seq te2.prefix_states = some st)
    (sck : Option String)
    (hsck : impl.shortcut_key st.parser = .ok sck)
    (hns : sck ≠ some "json_freetext") :
    ∀ t s, (t, s) ∈ regular_tokens → validWalk impl st.parser s = true → t ∈ toks := by
  intro t s hmem hw
  obtain ⟨st2, hst2, htoks, l, hfr, hif⟩ :=
    get_result_spec htot hcc hr seq toks te2 hget
  rw [hst2] at hst
  injection hst with hst
  subst hst
  have hmem2 := fresh_allowed_complete hsck hns hfr hmem hw
  have hl : l ≠ [] := by
    intro hl
    subst hl
    simp at hmem2
  rw [hif, if_neg hl]
  exact hmem2

/-- C3 (non-empty result): on a reachable session with a compliant
never-raising grammar, a successful query never returns an empty list:
either the computed set is non-empty or the forced end-marker fallback
applies. -/

theorem C3_nonempty {σ : Type} (regular_tokens : List (Nat × List Char))
    (impl : ParserImpl σ) (parser0 : σ) (decoder : List Nat → List Char)
    (eos_token_id : Nat) (te te2 : TokenEnforcer σ) (seq toks : List Nat)
    (htot : TotalImpl impl) (hcc : CacheKeyContract impl)
    (hr : Reachable regular_tokens impl parser0 decoder eos_token_id te)
    (hget : get_allowed_tokens te seq = (.ok toks, te2)) :
    toks ≠ [] := by
  obtain ⟨st2, hst2, htoks, l, hfr, hif⟩ :=
    get_result_spec htot hcc hr seq toks te2 hget
  by_cases hl : l = []
  · subst hl
    simp only [if_pos rfl] at hif
    rw [hif]
    simp
  · rw [hif, if_neg hl]
    exact hl

/-- C4 (divergence safety): querying a one-token extension whose decoded
suffix contains a character not in the allowed set of the grammar state
reached at that point does not raise: the engine stores the force-stop
state for the sequence and the returned allowed set is exactly the

end-marker singleton (the vocabulary holds no empty-string token, so the
trie root carries no tokens). -/

theorem C4_divergence {σ : Type} (te : TokenEnforcer σ) (seq : List Nat)
    (prev : OutputTensorState σ) (u : List Char) (c : Char) (v : List Char)
    (p2 : σ) (al : List Char)
    (hfs : ForceStopSpec te.impl)
    (h1 : assocLookup seq te.prefix_states = none)
    (h2 : assocLookup seq.dropLast te.prefix_states = some prev)
    (hsplit : (te.decoder seq).drop prev.str_so_far.length = u ++ c :: v)
    (hwe : walkEnd te.impl prev.parser u = some p2)
    (hal : te.impl.get_allowed_characters p2 = .ok al)
    (hc : c ∉ al)
    (hroot : te.tokenizer_tree.root.tokens = []) :
    get_allowed_tokens te seq
      = (.ok [te.eos_token_id],
         { te with prefix_states :=
             (seq, { str_so_far := te.decoder seq, parser := te.impl.force_stop,
                     allowed_tokens := [te.eos_token_id] }) :: te.prefix_states }) := by
  have happ0 : apply_characters te.impl prev.parser
      ((te.decoder seq).drop prev.str_so_far.length) = .ok te.impl.force_stop := by
    rw [hsplit]
    exact apply_characters_divergence hfs u c v prev.parser p2 al hwe hal hc
  have happ := apply_new_characters_ok te prev seq te.impl.force_stop happ0
  rw [get_incr te seq prev _ h1 h2 happ]
  have hfr := fresh_allowed_force_stop hfs te.tokenizer_tree te.eos_token_id hroot
  have hcomp := compute_nokey te
    { str_so_far := te.decoder seq, parser := te.impl.force_stop, allowed_tokens := [] }
    [te.eos_token_id] hfs.2.2.1 hfr (by simp)
  rw [step_with_eq _ _ _ _ _ _ hcomp]
  rfl

/-- C5 (incremental consistency): if the stored state of a sequence s was
reached by walking the decoded text of s beyond some origin point from the
session's root grammar state, then the state the incremental path stores
for the one-token extension s+t is reached by the same walk over the
decoded text of s+t — i.e. the incremental state equals the from-scratch
character walk (the decoder is prefix-monotone: decoding s+t extends the
decoding of s). -/

theorem C5_incremental {σ : Type} (te : TokenEnforcer σ) (s : List Nat) (t : Nat)
    (prev : OutputTensorState σ) (n : Nat) (rest : List Char)
    (htot : TotalImpl te.impl)
    (h1 : assocLookup (s ++ [t]) te.prefix_states = none)
    (h2 : assocLookup s te.prefix_states = some prev)
    (hstr : prev.str_so_far = te.decoder s)
    (hdec : te.decoder (s ++ [t]) = te.decoder s ++ rest)
    (hn : n ≤ (te.decoder s).length)
    (hscratch : apply_characters te.impl te.rootParser ((te.decoder s).drop n)
      = .ok prev.parser) :
    ∃ st2, assocLookup (s ++ [t])
        ((get_allowed_tokens te (s ++ [t])).2).prefix_states = some st2 ∧
      apply_characters te.impl te.rootParser ((te.decoder (s ++ [t])).drop n)
        = .ok st2.parser ∧
      st2.str_so_far = te.decoder (s ++ [t]) := by
  have hdl : (s ++ [t]).dropLast = s := List.dropLast_concat
  have hnc : (te.decoder (s ++ [t])).drop prev.str_so_far.length = rest := by
    rw [hstr, hdec, List.drop_left]
  obtain ⟨q, happ0⟩ := apply_characters_total htot rest prev.parser
  have happ := apply_new_characters_ok te prev (s ++ [t]) q (by rw [hnc]; exact happ0)
  rw [get_incr te (s ++ [t]) prev _ h1 (by rw [hdl]; exact h2) happ]
  obtain ⟨C, stA, res, hcomp⟩ := compute_cache_only te
    { str_so_far := te.decoder (s ++ [t]), parser := q, allowed_tokens := [] }
  have hfields := compute_state_fields te
    { str_so_far := te.decoder (s ++ [t]), parser := q, allowed_tokens := [] }
  rw [hcomp] at hfields
  rw [step_with_eq _ _ _ _ _ _ hcomp]
  refine ⟨stA, by simp [assocLookup], ?_, hfields.2⟩
  rw [hfields.1]
  rw [hdec, list_drop_append_of_le n _ _ hn, apply_characters_append, hscratch,
    except_ok_bind]
  exact happ0

/-- C6 (failure isolation): a recognized LMFormatEnforcerException raised
while computing the allowed tokens propagates out of
_compute_allowed_tokens and get_allowed_tokens unchanged (the state is
still recorded, with no allowed tokens computed); any other exception is
caught and the sequence's allowed set is forced to exactly the end-marker
singleton instead of aborting the call.  The accompanying log line is
observable only on the log stream and is modelled as a no-op. -/

theorem C6_failure_isolation {σ : Type} (te : TokenEnforcer σ) :
    (∀ (st : OutputTensorState σ) m,
      compute_allowed_tokens_body te st = .error (.lmfe m) →
      compute_allowed_tokens te st = (.error (.lmfe m), st, te)) ∧
    (∀ (st : OutputTensorState σ) m,
      compute_allowed_tokens_body te st = .error (.other m) →
      compute_allowed_tokens te st
        = (.ok (), { st with allowed_tokens := [te.eos_token_id] }, te)) ∧
    (∀ seq m, assocLookup seq te.prefix_states = none →
      assocLookup seq.dropLast te.prefix_states = none →
      compute_allowed_tokens_body te
          { str_so_far := te.decoder seq, parser := te.rootParser, allowed_tokens := [] }
        = .error (.lmfe m) →
      get_allowed_tokens te seq
        = (.error (.lmfe m),
           { te with prefix_states :=
               (seq, { str_so_far := te.decoder seq, parser := te.rootParser,
                       allowed_tokens := [] }) :: te.prefix_states })) ∧
    (∀ seq m, assocLookup seq te.prefix_states = none →
      assocLookup seq.dropLast te.prefix_states = none →
      compute_allowed_tokens_body te
          { str_so_far := te.decoder seq, parser := te.rootParser, allowed_tokens := [] }
        = .error (.other m) →
      (get_allowed_tokens te seq).1 = .ok [te.eos_token_id]) := by
  refine ⟨?_, ?_, ?_, ?_⟩
  · intro st m hb
    exact compute_lmfe te st m hb
  · intro st m hb
    exact compute_other te st m hb
  · intro seq m h1 h2 hb
    rw [get_fresh te seq h1 h2]
    rw [step_with_eq _ _ _ _ _ _ (compute_lmfe te _ m hb)]
    rfl
  · intro seq m h1 h2 hb
    rw [get_fresh te seq h1 h2]
    rw [step_with_eq _ _ _ _ _ _ (compute_other te _ m hb)]
    rfl

/-- C7 (free-text shortcut): when the top-level shortcut key is the
free-text tag, the traversal adds the whole precomputed free-text token
set immediately after the node's own tokens, and the first-level
character exploration runs in delimiter-only mode: it explores exactly
the children whose character is the delimiter and allowed (the
intersection with the allowed set restricted to the delimiter), each
explored child receiving a null shortcut key (the false-mode traversal
passes none to every recursive call by definition). -/

theorem C7_shortcut {σ : Type} (impl : ParserImpl σ) (jft : List Nat) (p : σ)
    (ts : List Nat) (children : List (Char × TokenizerPrefixTreeNode))
    (al : List Char) (hal : impl.get_allowed_characters p = .ok al) :
    collect_allowed_tokens impl jft p (.mk ts children) (some "json_freetext")
      = (collect_children impl jft p (al.filter (fun c => decide (c = '"')))
          false children).map (fun explored => ts ++ jft ++ explored) := by
  rw [collect_allowed_tokens]
  simp only [hal, except_ok_bind]
  simp only [show ((some "json_freetext" : Option String) = some "json_freetext") = True
      by simp, decide_True, if_true]
  rw [collect_children_quote_filter]
  cases collect_children impl jft p (al.filter (fun c => decide (c = '"'))) false children with
  | error e => simp
  | ok explored => simp

/-- C8 (cross-path memoization), on a reachable session with a compliant
never-raising grammar: (i) a state whose non-null cache key is present in
the cross-path cache is assigned the cached set with no recomputation and
no further mutation; (ii) under the cache-key contract that cached set
equals what direct recomputation for the state would produce; (iii) any
two stored states with equal non-null cache keys carry the same allowed
set; (iv) a state with a null cache key neither reads from nor writes to
the cross-path cache: the outcome is independent of the cache contents,
which pass through unchanged. -/

theorem C8_memoization {σ : Type} (regular_tokens : List (Nat × List Char))
    (impl : ParserImpl σ) (parser0 : σ) (decoder : List Nat → List Char)
    (eos_token_id : Nat) (te : TokenEnforcer σ)
    (htot : TotalImpl impl) (hcc : CacheKeyContract impl)
    (hr : Reachable regular_tokens impl parser0 decoder eos_token_id te) :
    (∀ (st : OutputTensorState σ) k cached,
      impl.cache_key st.parser = .ok (some k) →
      assocLookup k te.allowed_token_cache = some cached →
      compute_allowed_tokens te st
        = (.ok (), { st with allowed_tokens := cached }, te)) ∧
    (∀ (st : OutputTensorState σ) k cached,
      impl.cache_key st.parser = .ok (some k) →
      assocLookup k te.allowed_token_cache = some cached →
      fresh_allowed impl (TokenizerPrefixTree.build regular_tokens) eos_token_id
          st.parser = .ok cached) ∧
    (∀ seq1 st1 seq2 st2 k, (seq1, st1) ∈ te.prefix_states →
      (seq2, st2) ∈ te.prefix_states →
      impl.cache_key st1.parser = .ok (some k) →
      impl.cache_key st2.parser = .ok (some k) →
      st1.allowed_tokens = st2.allowed_tokens) ∧
    (∀ (st : OutputTensorState σ) (X : List (String × List Nat)),
      impl.cache_key st.parser = .ok none →
      compute_allowed_tokens { te with allowed_token_cache := X } st
        = ((compute_allowed_tokens te st).1, (compute_allowed_tokens te st).2.1,
           { te with allowed_token_cache := X })) := by
  obtain ⟨hinv, himpl, hroot, hdec, heos⟩ := reachable_sessionInv htot hcc hr
  have hrw : ∀ (p : σ), fresh_allowed te.impl te.tokenizer_tree te.eos_token_id p
      = fresh_allowed impl (TokenizerPrefixTree.build regular_tokens) eos_token_id p := by
    intro p
    rw [himpl, hinv.tree_eq, heos]
  refine ⟨?_, ?_, ?_, ?_⟩
  · intro st k cached hck hlk
    exact compute_hit te st k cached (by rw [himpl]; exact hck) hlk
  · intro st k cached hck hlk
    obtain ⟨hne, pc, hpk, hpf⟩ := hinv.cache_inv k cached (assocLookup_mem hlk)
    have hb : Bisim impl st.parser pc := hcc st.parser pc k hck (by rw [← himpl]; exact hpk)
    rw [fresh_allowed_bisim (TokenizerPrefixTree.build regular_tokens) eos_token_id hb]
    rw [← hrw pc]
    exact hpf
  · intro seq1 st1 seq2 st2 k hm1 hm2 hk1 hk2
    obtain ⟨l1, hfr1, hal1⟩ := hinv.state_inv seq1 st1 hm1
    obtain ⟨l2, hfr2, hal2⟩ := hinv.state_inv seq2 st2 hm2
    have hb : Bisim impl st1.parser st2.parser := hcc st1.parser st2.parser k hk1 hk2
    rw [hrw st1.parser] at hfr1
    rw [hrw st2.parser] at hfr2
    rw [fresh_allowed_bisim (TokenizerPrefixTree.build regular_tokens) eos_token_id hb]
      at hfr1
    rw [hfr2] at hfr1
    injection hfr1 with hfr1
    rw [hal1, hal2, hfr1]
  · intro st X hck
    exact compute_nokey_cache_blind te st X (by rw [himpl]; exact hck)

/-- C9 (determinism across repeat queries): a second query with a
token sequence of equal value returns exactly the first query's result and
leaves the session unchanged (the per-sequence cache hit path). -/

theorem C9_determinism {σ : Type} (te te2 : TokenEnforcer σ) (seq toks : List Nat)
    (hget : get_allowed_tokens te seq = (.ok toks, te2)) :
    get_allowed_tokens te2 seq = (.ok toks, te2) := by
  cases h1 : assocLookup seq te.prefix_states with
  | some st =>
    rw [get_hit te seq st h1] at hget
    injection hget with hg1 hg2
    injection hg1 with hg1
    subst hg2
    rw [get_hit te seq st h1, hg1]
  | none =>
    have hstep : ∀ (st0 : OutputTensorState σ),
        step_with te seq st0 = (.ok toks, te2) →
        get_allowed_tokens te2 seq = (.ok toks, te2) := by
      intro st0 hsw
      rcases hcomp : compute_allowed_tokens te st0 with ⟨res, stA, te3⟩
      rw [step_with_eq _ _ _ _ _ _ hcomp] at hsw
      cases res with
      | error e =>
        simp only [except_map_error] at hsw
        injection hsw with hg1 hg2
        simp at hg1
      | ok x =>
        simp only [except_map_ok] at hsw
        injection hsw with hg1 hg2
        injection hg1 with hg1
        rw [← hg2]
        rw [get_hit _ seq stA (by simp [assocLookup]), hg1]
    cases h2 : assocLookup seq.dropLast te.prefix_states with
    | none =>
      rw [get_fresh te seq h1 h2] at hget
      exact hstep _ hget
    | some prev =>
      cases happ : apply_new_characters te prev seq with
      | error e =>
        rw [get_incr_error te seq prev e h1 h2 happ] at hget
        simp at hget
      | ok ns =>
        rw [get_incr te seq prev ns h1 h2 happ] at hget
        exact hstep ns hget

/-- C10 (unknown-prefix fallback): when neither the sequence nor its
immediate prefix has a stored state — including mid-session calls that
violate the one-token-extension precondition — the call succeeds (for a
never-raising grammar), and the engine pairs the sequence's full decoded
text with the untouched root grammar state, so none of that text is
validated against the grammar. -/

theorem C10_unknown_prefix {σ : Type} (te : TokenEnforcer σ) (seq : List Nat)
    (htot : TotalImpl te.impl)
    (h1 : assocLookup seq te.prefix_states = none)
    (h2 : assocLookup seq.dropLast te.prefix_states = none) :
    ∃ toks st2,
      get_allowed_tokens te seq = (.ok toks, (get_allowed_tokens te seq).2) ∧
      assocLookup seq ((get_allowed_tokens te seq).2).prefix_states = some st2 ∧
      st2.parser = te.rootParser ∧
      st2.str_so_far = te.decoder seq ∧
      toks = st2.allowed_tokens := by
  rw [get_fresh te seq h1 h2]
  rcases hcomp : compute_allowed_tokens te
    { str_so_far := te.decoder seq, parser := te.rootParser, allowed_tokens := [] }
    with ⟨res, stA, te3⟩
  have hres := compute_res_ok te
    { str_so_far := te.decoder seq, parser := te.rootParser, allowed_tokens := [] } htot
  rw [hcomp] at hres
  simp only at hres
  subst hres
  have hfields := compute_state_fields te
    { str_so_far := te.decoder seq, parser := te.rootParser, allowed_tokens := [] }
  rw [hcomp] at hfields
  rw [step_with_eq _ _ _ _ _ _ hcomp]
  refine ⟨stA.allowed_tokens, stA, ?_, by simp [assocLookup], hfields.1, hfields.2, rfl⟩
  rfl

theorem AImpl_total : TotalImpl AImpl := by
  intro p
  exact ⟨⟨_, rfl⟩, fun c => ⟨_, rfl⟩, ⟨_, rfl⟩, ⟨_, rfl⟩, ⟨_, rfl⟩⟩

theorem AImpl_cache_contract : CacheKeyContract AImpl := by
  intro p q k hp hq
  simp [AImpl] at hp

theorem AImpl_freetext : FreetextContract AImpl AVocab := by
  intro p hp t s hmem hq
  simp [AImpl] at hp

theorem ASession_eval :
    get_allowed_tokens ASession [3] = (.ok [5, 9], (get_allowed_tokens ASession [3]).2) := by
  have h1 : (get_allowed_tokens ASession [3]).1 = .ok [5, 9] := by
    simp [get_allowed_tokens, ASession, TokenEnforcer.init, AVocab,
      TokenizerPrefixTree.build, add_token_to_tree, assocLookup, step_with,
      compute_allowed_tokens, compute_allowed_tokens_body, fresh_allowed,
      collect_allowed_tokens, collect_children, AImpl]
  rw [← h1]

theorem ASession_lookup :
    assocLookup [3] ((get_allowed_tokens ASession [3]).2).prefix_states
      = some { str_so_far := [], parser := 0, allowed_tokens := [5, 9] } := by
  simp [get_allowed_tokens, ASession, TokenEnforcer.init, AVocab,
    TokenizerPrefixTree.build, add_token_to_tree, assocLookup, step_with,
    compute_allowed_tokens, compute_allowed_tokens_body, fresh_allowed,
    collect_allowed_tokens, collect_children, AImpl]

theorem C1_soundness_witness :
    (∀ t, t ∈ ([5, 9] : List Nat) → t ≠ 9 →
      ∃ s, (t, s) ∈ AVocab ∧ validWalk AImpl
        ({ str_so_far := [], parser := 0, allowed_tokens := [5, 9] } :
          OutputTensorState (Fin 2)).parser s = true) ∧
    (AImpl.can_end ({ str_so_far := [], parser := 0, allowed_tokens := [5, 9] } :
        OutputTensorState (Fin 2)).parser = .ok true →
      9 ∈ ([5, 9] : List Nat)) := by
  exact C1_soundness AVocab AImpl 0 (fun _ => []) 9 ASession
    (get_allowed_tokens ASession [3]).2 [3] [5, 9] AImpl_total AImpl_cache_contract
    AImpl_freetext Reachable.init ASession_eval _ ASession_lookup

theorem C2_completeness_no_shortcut_witness : 5 ∈ ([5, 9] : List Nat) := by
  exact C2_completeness_no_shortcut AVocab AImpl 0 (fun _ => []) 9 ASession
    (get_allowed_tokens ASession [3]).2 [3] [5, 9] AImpl_total AImpl_cache_contract
    Reachable.init ASession_eval _ ASession_lookup none rfl (by simp)
    5 ['a'] (by simp [AVocab]) (by decide)

theorem C3_nonempty_witness : ([5, 9] : List Nat) ≠ [] := by
  exact C3_nonempty AVocab AImpl 0 (fun _ => []) 9 ASession
    (get_allowed_tokens ASession [3]).2 [3] [5, 9] AImpl_total AImpl_cache_contract
    Reachable.init ASession_eval

theorem C4_divergence_witness :
    get_allowed_tokens C4Session [7, 3]
      = (.ok [9],
         { C4Session with prefix_states :=
             ([7, 3], { str_so_far := ['x'], parser := 1, allowed_tokens := [9] })
               :: C4Session.prefix_states }) := by
  exact C4_divergence C4Session [7, 3]
    { str_so_far := [], parser := 0, allowed_tokens := [5, 9] } [] 'x' [] 0 ['a']
    ⟨rfl, rfl, rfl, rfl⟩ rfl rfl rfl rfl rfl (by decide) rfl

theorem C5_incremental_witness :
    ∃ st2, assocLookup ([7] ++ [3])
        ((get_allowed_tokens C5Session ([7] ++ [3])).2).prefix_states = some st2 ∧
      apply_characters C5Session.impl C5Session.rootParser
          ((C5Session.decoder ([7] ++ [3])).drop 0) = .ok st2.parser ∧
      st2.str_so_far = C5Session.decoder ([7] ++ [3]) := by
  exact C5_incremental C5Session [7] 3
    { str_so_far := [], parser := 0, allowed_tokens := [5, 9] } 0 ['a']
    AImpl_total rfl rfl rfl rfl (Nat.zero_le _) rfl

theorem C6_failure_isolation_witness :
    compute_allowed_tokens RaiseSession
        { str_so_far := [], parser := false, allowed_tokens := [] }
      = (.error (.lmfe "bad schema"),
         { str_so_far := [], parser := false, allowed_tokens := [] }, RaiseSession) ∧
    compute_allowed_tokens RaiseSession
        { str_so_far := [], parser := true, allowed_tokens := [] }
      = (.ok (), { str_so_far := [], parser := true, allowed_tokens := [0] },
         RaiseSession) := by
  have hb2 : compute_allowed_tokens_body RaiseSession
      { str_so_far := [], parser := true, allowed_tokens := [] }
      = .error (.other "boom") := by
    simp [compute_allowed_tokens_body, fresh_allowed, RaiseSession, TokenEnforcer.init,
      TokenizerPrefixTree.build, collect_allowed_tokens, RaiseImpl]
  exact ⟨(C6_failure_isolation RaiseSession).1 _ "bad schema" rfl,
    (C6_failure_isolation RaiseSession).2.1 _ "boom" hb2⟩

theorem C7_shortcut_witness :
    AImpl.get_allowed_characters 0 = .ok ['a'] ∧
    collect_allowed_tokens AImpl [5] 0 (.mk [] [('a', .mk [5] [])])
        (some "json_freetext")
      = (collect_children AImpl [5] 0 (['a'].filter (fun c => decide (c = '"')))
          false [('a', .mk [5] [])]).map (fun explored => [] ++ [5] ++ explored) := by
  exact ⟨rfl, C7_shortcut AImpl [5] 0 [] [('a', .mk [5] [])] ['a'] rfl⟩

theorem C8_memoization_witness :
    compute_allowed_tokens { ASession with allowed_token_cache := [] }
        { str_so_far := [], parser := 0, allowed_tokens := [] }
      = ((compute_allowed_tokens ASession
            { str_so_far := [], parser := 0, allowed_tokens := [] }).1,
         (compute_allowed_tokens ASession
            { str_so_far := [], parser := 0, allowed_tokens := [] }).2.1,
         { ASession with allowed_token_cache := [] }) := by
  exact (C8_memoization AVocab AImpl 0 (fun _ => []) 9 ASession AImpl_total
    AImpl_cache_contract Reachable.init).2.2.2
    { str_so_far := [], parser := 0, allowed_tokens := [] } [] rfl

theorem C9_determinism_witness :
    get_allowed_tokens (get_allowed_tokens ASession [3]).2 [3]
      = (.ok [5, 9], (get_allowed_tokens ASession [3]).2) := by
  exact C9_determinism ASession (get_allowed_tokens ASession [3]).2 [3] [5, 9]
    ASession_eval

theorem C10_unknown_prefix_witness :
    ∃ toks st2,
      get_allowed_tokens ASession [3] = (.ok toks, (get_allowed_tokens ASession [3]).2) ∧
      assocLookup [3] ((get_allowed_tokens ASession [3]).2).prefix_states = some st2 ∧
      st2.parser = ASession.rootParser ∧
      st2.str_so_far = ASession.decoder [3] ∧
      toks = st2.allowed_tokens := by
  exact C10_unknown_prefix ASession [3] AImpl_total rfl rfl
